import Mathlib

/-!
Verification of the loop-prevention controller core (KruskalController.py):
union-find structure, topology model, Kruskal MST engine, link enforcer and
the lazy compute-on-first-flood lifecycle, shallowly embedded in Lean.

Python's recursive `find` terminates because the parent array is a forest;
the embedding makes the recursion structural on an explicit fuel argument
(the array length suffices, as proved below), and models Python exceptions
(IndexError on an out-of-range id, AttributeError on an uninitialized
disjoint-set) as `none`.
-/

/-! ## Union-find (class `UnionFindSet`) -/

structure UnionFindSet where
  fa : List Nat
  size : Nat
deriving DecidableEq

def UnionFindSet.init (n : Nat) : UnionFindSet :=
  ⟨List.range (n + 1), n⟩

/-- Embedding of `UnionFindSet.find` with path compression: returns the
updated parent array and the representative.  `none` models an IndexError
(id out of array range) or exhausted fuel. -/
def findAux : Nat → List Nat → Nat → Option (List Nat × Nat)
  | 0, _, _ => none
  | fuel + 1, fa, x =>
    if hx : x < fa.length then
      if fa[x] = x then some (fa, x)
      else
        match findAux fuel fa fa[x] with
        | none => none
        | some (fa2, r) => some (fa2.set x r, r)
    else none

def UnionFindSet.find (s : UnionFindSet) (x : Nat) : Option (UnionFindSet × Nat) :=
  match findAux s.fa.length s.fa x with
  | some (fa2, r) => some (⟨fa2, s.size⟩, r)
  | none => none

def UnionFindSet.union (s : UnionFindSet) (x y : Nat) : Option UnionFindSet :=
  match s.find x with
  | none => none
  | some (s1, rx) =>
    match s1.find y with
    | none => none
    | some (s2, ry) =>
      if rx ≠ ry then some ⟨s2.fa.set ry rx, s2.size⟩ else some s2

/-- Root lookup without path compression (pure specification companion of
`findAux`; follows exactly the same parent chain). -/
def rootAux : Nat → List Nat → Nat → Option Nat
  | 0, _, _ => none
  | fuel + 1, fa, x =>
    if hx : x < fa.length then
      if fa[x] = x then some x
      else rootAux fuel fa fa[x]
    else none

/-- x reaches root r in the parent array (for some fuel). -/
def RootP (fa : List Nat) (x r : Nat) : Prop :=
  ∃ fuel, rootAux fuel fa x = some r

/-- x and y lie in the same union-find component (they share a root). -/
def UFRel (s : UnionFindSet) (x y : Nat) : Prop :=
  ∃ r, RootP s.fa x r ∧ RootP s.fa y r

/-- The parent array is a well-formed forest: entries in range, and every
in-range slot reaches a root. -/
def WFfa (fa : List Nat) : Prop :=
  (∀ (i p : Nat), fa[i]? = some p → p < fa.length) ∧
  (∀ x, x < fa.length → ∃ r, RootP fa x r)

def UnionFindSet.WF (s : UnionFindSet) : Prop :=
  WFfa s.fa

/-- Sequenced root comparison exactly as `union` performs it (`find(x)`
then `find(y)` on the state mutated by the first find). -/
def rootsEqual (s : UnionFindSet) (x y : Nat) : Prop :=
  ∃ s1 rx s2 ry, s.find x = some (s1, rx) ∧ s1.find y = some (s2, ry) ∧ rx = ry

def applyUnions (s : UnionFindSet) : List (Nat × Nat) → Option UnionFindSet
  | [] => some s
  | p :: ps =>
    match s.union p.1 p.2 with
    | none => none
    | some s' => applyUnions s' ps

/-! ## Spec-level connectivity -/

/-- Closure of a base relation `P` together with a list of (undirected)
edge pairs: the least equivalence relation containing both. -/
inductive RelJoin (P : Nat → Nat → Prop) (ps : List (Nat × Nat)) : Nat → Nat → Prop
  | base {a b : Nat} : P a b → RelJoin P ps a b
  | edge {a b : Nat} : (a, b) ∈ ps → RelJoin P ps a b
  | refl (a : Nat) : RelJoin P ps a a
  | symm {a b : Nat} : RelJoin P ps a b → RelJoin P ps b a
  | trans {a b c : Nat} : RelJoin P ps a b → RelJoin P ps b c → RelJoin P ps a c

/-- Connectivity generated by a list of edge pairs alone. -/
def Conn (ps : List (Nat × Nat)) : Nat → Nat → Prop :=
  RelJoin (fun a b => a = b) ps

/-! ## Topology model (class `Topo`) -/

structure Edge where
  src : Nat
  dst : Nat
  src_port : Nat
  dst_port : Nat
  weight : Nat
deriving DecidableEq

def pairsOf (l : List Edge) : List (Nat × Nat) :=
  l.map (fun e => (e.src, e.dst))

def hasEdge (E : List Edge) (u v : Nat) : Bool :=
  E.any (fun e => e.src == u && e.dst == v)

def getWeight (E : List Edge) (u v : Nat) : Nat :=
  match E.find? (fun e => e.src == u && e.dst == v) with
  | some e => e.weight
  | none => 0

/-- networkx `add_edge`: replaces the attributes of an existing (src, dst)
edge, otherwise appends a new edge. -/
def addEdge (E : List Edge) (e : Edge) : List Edge :=
  if hasEdge E e.src e.dst then
    E.map (fun e' => if e'.src == e.src && e'.dst == e.dst then e else e')
  else E ++ [e]

/-- Stable ascending insertion by weight (Python's `sorted` with
`key=lambda e: e[2]["weight"]` is a stable ascending sort). -/
def insertByWeight (e : Edge) : List Edge → List Edge
  | [] => [e]
  | f :: fs => if e.weight ≤ f.weight then e :: f :: fs else f :: insertByWeight e fs

def sortEdges : List Edge → List Edge
  | [] => []
  | e :: es => insertByWeight e (sortEdges es)

/-- Kruskal loop body over the sorted edge list, threading the mutable
disjoint-set exactly as the Python loop does (two finds for the test, then
`union`, which redoes the finds on the compressed state). -/
def kruskalGo : List Edge → UnionFindSet → Option (List Edge × UnionFindSet)
  | [], s => some ([], s)
  | e :: es, s =>
    match s.find e.src with
    | none => none
    | some (s1, ru) =>
      match s1.find e.dst with
      | none => none
      | some (s2, rv) =>
        if ru ≠ rv then
          match s2.union e.src e.dst with
          | none => none
          | some s3 =>
            match kruskalGo es s3 with
            | none => none
            | some (t, s') => some (e :: t, s')
        else kruskalGo es s2

/-- `Topo.Kruskal`: sort the current edges by weight, select tree edges,
return them as (src, dst) pairs, together with the mutated disjoint-set
(`self.set` after the run). -/
def Topo.Kruskal (E : List Edge) (s : UnionFindSet) :
    Option (List (Nat × Nat) × UnionFindSet) :=
  match kruskalGo (sortEdges E) s with
  | none => none
  | some (t, s') => some (t.map (fun e => (e.src, e.dst)), s')

def wsum (l : List Edge) : Nat :=
  (l.map Edge.weight).sum

/-! ## Rebuild (switch_enter_handler edge construction) -/

/-- One discovered directed link: (src dpid, src port, dst dpid, dst port). -/
structure LinkDisc where
  src : Nat
  src_port : Nat
  dst : Nat
  dst_port : Nat

/-- The edge-construction loop of `switch_enter_handler`: for each link,
reuse the sibling's weight when the reverse edge already exists, otherwise
draw a fresh weight from the provider stream `ws` at counter `k`. -/
def rebuildEdges (ws : Nat → Nat) : List LinkDisc → Nat → List Edge → List Edge × Nat
  | [], k, acc => (acc, k)
  | l :: ls, k, acc =>
    if hasEdge acc l.dst l.src then
      rebuildEdges ws ls k (addEdge acc ⟨l.src, l.dst, l.src_port, l.dst_port, getWeight acc l.dst l.src⟩)
    else
      rebuildEdges ws ls (k + 1) (addEdge acc ⟨l.src, l.dst, l.src_port, l.dst_port, ws k⟩)

/-! ## Controller (class `KruskalController`) -/

def ETH_TYPE_LLDP : Nat := 35020
def ETH_TYPE_IPV6 : Nat := 34525
def OFPP_FLOOD : Nat := 4294967291
def OFPPC_PORT_DOWN : Nat := 1

inductive CAction
  | portMod (dpid port config : Nat)
  | flowMod (dpid out_port : Nat)
  | packetOut (dpid in_port out_port : Nat)
deriving DecidableEq

structure TopoS where
  edges : List Edge
  ufset : Option UnionFindSet
  MST_exist : Bool
deriving DecidableEq

/-- A fresh `Topo()` as built in `Topo.__init__`. -/
def TopoS.new : TopoS :=
  ⟨[], none, false⟩

structure Packet where
  dpid : Nat
  in_port : Nat
  src : Nat
  dst : Nat
  ethertype : Nat

structure CState where
  datapaths : List Nat
  mac_to_port : Nat → Nat → Option Nat
  topo : TopoS
  switches : List (Nat × List Nat)

def find_datapath_by_id (s : CState) (dpid : Nat) : Option Nat :=
  s.datapaths.find? (fun d => d == dpid)

def get_switch_ports (s : CState) (dpid : Nat) : Option (List Nat) :=
  (s.switches.find? (fun p => p.1 == dpid)).map Prod.snd

/-- `send_port_mod`: looks the port's hardware address up in the discovery
view; a missing switch is an IndexError (`get_switch(...)[0]`), a missing
port descriptor is a silent skip. -/
def send_port_mod (s : CState) (dpid port opt : Nat) : Option (List CAction) :=
  match get_switch_ports s dpid with
  | none => none
  | some ports => if ports.contains port then some [CAction.portMod dpid port opt] else some []

/-- Loop body of `block_links` over the topology edge list. -/
def blockGo (s : CState) (excepts : List (Nat × Nat)) : List Edge → Option (List CAction)
  | [] => some []
  | e :: es =>
    if (e.src, e.dst) ∈ excepts ∨ (e.dst, e.src) ∈ excepts then blockGo s excepts es
    else
      match find_datapath_by_id s e.src, find_datapath_by_id s e.dst with
      | some du, some dv =>
        match send_port_mod s du e.src_port OFPPC_PORT_DOWN with
        | none => none
        | some a1 =>
          match send_port_mod s dv e.dst_port OFPPC_PORT_DOWN with
          | none => none
          | some a2 =>
            match blockGo s excepts es with
            | none => none
            | some rest => some (a1 ++ a2 ++ rest)
      | _, _ => blockGo s excepts es

/-- `block_links`: for every topology edge whose endpoint pair is not in
`excepts` (in either orientation), and only when BOTH endpoint datapaths
are registered, issue the two port-down actions per `send_port_mod`. -/
def block_links (s : CState) (excepts : List (Nat × Nat)) : Option (List CAction) :=
  blockGo s excepts s.topo.edges

def updateMac (m : Nat → Nat → Option Nat) (dpid mac port : Nat) :
    Nat → Nat → Option Nat :=
  fun d a => if d = dpid ∧ a = mac then some port else m d a

/-- The forwarding decision of `packet_in_handler`: learn the source MAC,
then look the destination up, defaulting to OFPP_FLOOD. -/
def outPortOf (s : CState) (p : Packet) : Nat :=
  ((updateMac s.mac_to_port p.dpid p.src p.in_port) p.dpid p.dst).getD OFPP_FLOOD

/-- The two forwarding actions every non-filtered packet produces
(flow install and packet-out). -/
def fwdActions (s : CState) (p : Packet) : List CAction :=
  [CAction.flowMod p.dpid (outPortOf s p), CAction.packetOut p.dpid p.in_port (outPortOf s p)]

/-- `packet_in_handler`: filter control ethertypes, learn the source MAC,
look up the destination, on flood-fallback with no MST yet run Kruskal and
the link enforcer, then install the flow and send the packet out.
`block_links` reads only the edge list, datapaths and switch view, which
the handler does not modify, so it is invoked on the incoming state. -/
def packet_in (s : CState) (p : Packet) : Option (CState × List CAction) :=
  if p.ethertype = ETH_TYPE_LLDP ∨ p.ethertype = ETH_TYPE_IPV6 then
    some (s, [])
  else
    if outPortOf s p = OFPP_FLOOD ∧ s.topo.MST_exist = false then
      match s.topo.ufset with
      | none => none
      | some uf =>
        match Topo.Kruskal s.topo.edges uf with
        | none => none
        | some (tree, uf2) =>
          match block_links s tree with
          | none => none
          | some acts =>
            some ({ s with
                      mac_to_port := updateMac s.mac_to_port p.dpid p.src p.in_port
                      topo := { s.topo with ufset := some uf2, MST_exist := true } },
              acts ++ fwdActions s p)
    else
      some ({ s with mac_to_port := updateMac s.mac_to_port p.dpid p.src p.in_port },
        fwdActions s p)

/-- `switch_enter_handler`: build a fresh `Topo`, repopulate datapaths and
nodes from discovery, initialize the union-find to the switch count, and
rebuild all edges with the weight reuse-or-sample rule.  The MAC-learning
table is untouched.  Returns the new state and the advanced weight-provider
counter. -/
def switch_enter (s : CState) (sws : List (Nat × List Nat)) (links : List LinkDisc)
    (ws : Nat → Nat) (k : Nat) : CState × Nat :=
  let r := rebuildEdges ws links k []
  ({ datapaths := sws.map Prod.fst
     mac_to_port := s.mac_to_port
     topo := { edges := r.1, ufset := some (UnionFindSet.init sws.length), MST_exist := false }
     switches := sws }, r.2)
/-! ## Union-find lemmas -/

theorem rootAux_mono {fa : List Nat} :
    ∀ {f f' x r}, rootAux f fa x = some r → f ≤ f' → rootAux f' fa x = some r := by
  intro f
  induction f with
  | zero => intro f' x r h _; simp [rootAux] at h
  | succ f ih =>
    intro f' x r h hle
    match f', hle with
    | f' + 1, hle =>
      have hle' : f ≤ f' := Nat.le_of_succ_le_succ hle
      rw [rootAux] at h ⊢
      split at h
      case isTrue hx =>
        rw [dif_pos hx]
        split at h
        case isTrue hroot => rwa [if_pos hroot]
        case isFalse hroot => rw [if_neg hroot]; exact ih h hle'
      case isFalse => exact absurd h (by simp)

theorem rootAux_lt {f : Nat} {fa : List Nat} {x r : Nat}
    (h : rootAux f fa x = some r) : x < fa.length := by
  match f with
  | 0 => simp [rootAux] at h
  | f + 1 =>
    rw [rootAux] at h
    split at h
    · assumption
    · simp at h

theorem rootAux_isRoot {fa : List Nat} :
    ∀ {f x r}, rootAux f fa x = some r → fa[r]? = some r := by
  intro f
  induction f with
  | zero => intro x r h; simp [rootAux] at h
  | succ f ih =>
    intro x r h
    rw [rootAux] at h
    split at h
    case isTrue hx =>
      split at h
      case isTrue hroot =>
        cases h
        rw [List.getElem?_eq_getElem hx, hroot]
      case isFalse => exact ih h
    case isFalse => simp at h

theorem RootP.determ {fa : List Nat} {x r r' : Nat}
    (h : RootP fa x r) (h' : RootP fa x r') : r = r' := by
  obtain ⟨f, hf⟩ := h
  obtain ⟨f', hf'⟩ := h'
  have h1 := rootAux_mono hf (Nat.le_max_left f f')
  have h2 := rootAux_mono hf' (Nat.le_max_right f f')
  rw [h1] at h2
  exact Option.some_injective _ h2

theorem RootP_of_root {fa : List Nat} {x : Nat} (h : fa[x]? = some x) : RootP fa x x := by
  obtain ⟨hx, hroot⟩ := List.getElem?_eq_some.mp h
  exact ⟨1, by rw [rootAux, dif_pos hx, if_pos hroot]⟩

theorem RootP_root {fa : List Nat} {x r : Nat} (h : RootP fa x r) : RootP fa r r := by
  obtain ⟨f, hf⟩ := h
  exact RootP_of_root (rootAux_isRoot hf)

theorem RootP_lt {fa : List Nat} {x r : Nat} (h : RootP fa x r) : x < fa.length := by
  obtain ⟨f, hf⟩ := h
  exact rootAux_lt hf

theorem RootP_root_lt {fa : List Nat} {x r : Nat} (h : RootP fa x r) : r < fa.length := by
  obtain ⟨f, hf⟩ := h
  exact (List.getElem?_eq_some.mp (rootAux_isRoot hf)).1

theorem RootP_isRoot {fa : List Nat} {x r : Nat} (h : RootP fa x r) : fa[r]? = some r := by
  obtain ⟨f, hf⟩ := h
  exact rootAux_isRoot hf

theorem RootP_step {fa : List Nat} {x p r : Nat}
    (hp : fa[x]? = some p) (hne : p ≠ x) : RootP fa x r ↔ RootP fa p r := by
  obtain ⟨hx, hget⟩ := List.getElem?_eq_some.mp hp
  constructor
  · rintro ⟨f, hf⟩
    match f with
    | 0 => simp [rootAux] at hf
    | f + 1 =>
      rw [rootAux, dif_pos hx, hget, if_neg hne] at hf
      exact ⟨f, hf⟩
  · rintro ⟨f, hf⟩
    exact ⟨f + 1, by rw [rootAux, dif_pos hx, hget, if_neg hne]; exact hf⟩

theorem RootP_root_determ {fa : List Nat} {x r : Nat}
    (hroot : fa[x]? = some x) (h : RootP fa x r) : r = x :=
  h.determ (RootP_of_root hroot)

theorem findAux_rootAux {fa : List Nat} :
    ∀ {f x fa2 r}, findAux f fa x = some (fa2, r) → rootAux f fa x = some r := by
  intro f
  induction f with
  | zero => intro x fa2 r h; simp [findAux] at h
  | succ f ih =>
    intro x fa2 r h
    rw [findAux] at h
    rw [rootAux]
    split at h
    case isTrue hx =>
      rw [dif_pos hx]
      split at h
      case isTrue hroot =>
        cases h
        rw [if_pos hroot]
      case isFalse hroot =>
        rw [if_neg hroot]
        split at h
        · exact absurd h (by simp)
        case h_2 fa3 r3 heq =>
          cases h
          exact ih heq
    case isFalse => simp at h

theorem findAux_of_rootAux {fa : List Nat} :
    ∀ {f x r}, rootAux f fa x = some r → ∃ fa2, findAux f fa x = some (fa2, r) := by
  intro f
  induction f with
  | zero => intro x r h; simp [rootAux] at h
  | succ f ih =>
    intro x r h
    rw [rootAux] at h
    rw [findAux]
    split at h
    case isTrue hx =>
      rw [dif_pos hx]
      split at h
      case isTrue hroot =>
        cases h
        exact ⟨fa, by rw [if_pos hroot]⟩
      case isFalse hroot =>
        obtain ⟨fa2, hfa2⟩ := ih h
        exact ⟨fa2.set x r, by rw [if_neg hroot, hfa2]⟩
    case isFalse => simp at h

theorem findAux_length {fa : List Nat} :
    ∀ {f x fa2 r}, findAux f fa x = some (fa2, r) → fa2.length = fa.length := by
  intro f
  induction f with
  | zero => intro x fa2 r h; simp [findAux] at h
  | succ f ih =>
    intro x fa2 r h
    rw [findAux] at h
    split at h
    case isTrue hx =>
      split at h
      case isTrue => cases h; rfl
      case isFalse hroot =>
        split at h
        · exact absurd h (by simp)
        case h_2 fa3 r3 heq =>
          cases h
          rw [List.length_set]
          exact ih heq
    case isFalse => simp at h

theorem set_getElem?_self {l : List Nat} {i a : Nat} (h : l[i]? = some a) :
    l.set i a = l := by
  apply List.ext_getElem?
  intro j
  rcases eq_or_ne i j with rfl | hne
  · rw [List.getElem?_set_eq_of_lt a (List.getElem?_eq_some.mp h).1]
    exact h.symm
  · exact List.getElem?_set_ne hne

theorem RootP_set_fresh {fa : List Nat} {x r : Nat} (hxlt : x < fa.length)
    (hrroot : fa[r]? = some r) (hrx : r ≠ x) : RootP (fa.set x r) x r := by
  have hset : (fa.set x r)[x]? = some r := List.getElem?_set_eq_of_lt r hxlt
  rw [RootP_step hset hrx]
  refine RootP_of_root ?_
  rw [List.getElem?_set_ne (Ne.symm hrx)]
  exact hrroot

theorem RootP_set_root_aux1 {fa : List Nat} {x r : Nat} (hxr : RootP fa x r)
    (hxroot : fa[x]? ≠ some x) :
    ∀ f y s, rootAux f fa y = some s → RootP (fa.set x r) y s := by
  have hxlt : x < fa.length := RootP_lt hxr
  have hrroot : fa[r]? = some r := RootP_isRoot hxr
  have hrx : r ≠ x := fun h => hxroot (h ▸ hrroot)
  intro f
  induction f with
  | zero => intro y s h; simp [rootAux] at h
  | succ f ih =>
    intro y s h
    rw [rootAux] at h
    split at h
    next hylt =>
      split at h
      next hyroot =>
        cases h
        rcases eq_or_ne y x with hyx | hyx
        · exact absurd (hyx ▸ (by rw [List.getElem?_eq_getElem hylt, hyroot] :
            fa[y]? = some y)) hxroot
        · refine RootP_of_root ?_
          rw [List.getElem?_set_ne (Ne.symm hyx), List.getElem?_eq_getElem hylt, hyroot]
      next hyroot =>
        rcases eq_or_ne y x with hyx | hyx
        · have hys : RootP fa y s := by
            have hp : fa[y]? = some (fa[y]) := List.getElem?_eq_getElem hylt
            rw [RootP_step hp hyroot]
            exact ⟨f, h⟩
          have hs : s = r := RootP.determ (hyx ▸ hys) hxr
          rw [hs, hyx]
          exact RootP_set_fresh hxlt hrroot hrx
        · have hp : (fa.set x r)[y]? = some (fa[y]) := by
            rw [List.getElem?_set_ne (Ne.symm hyx)]
            exact List.getElem?_eq_getElem hylt
          rw [RootP_step hp hyroot]
          exact ih (fa[y]) s h
    next => simp at h

theorem RootP_set_root_aux2 {fa : List Nat} {x r : Nat} (hxr : RootP fa x r)
    (hxroot : fa[x]? ≠ some x) :
    ∀ f y s, rootAux f (fa.set x r) y = some s → RootP fa y s := by
  have hxlt : x < fa.length := RootP_lt hxr
  have hrroot : fa[r]? = some r := RootP_isRoot hxr
  have hrx : r ≠ x := fun h => hxroot (h ▸ hrroot)
  have hset : (fa.set x r)[x]? = some r := List.getElem?_set_eq_of_lt r hxlt
  intro f
  induction f with
  | zero => intro y s h; simp [rootAux] at h
  | succ f ih =>
    intro y s h
    rw [rootAux] at h
    split at h
    next hylt =>
      have hylt' : y < fa.length := by simpa using hylt
      split at h
      next hyroot =>
        cases h
        rcases eq_or_ne y x with hyx | hyx
        · exfalso
          have h1 : (fa.set x r)[y]? = some y := by
            rw [List.getElem?_eq_getElem hylt, hyroot]
          rw [hyx] at h1
          rw [hset] at h1
          exact hrx (Option.some_inj.mp h1)
        · refine RootP_of_root ?_
          have h1 : (fa.set x r)[y]? = some y := by
            rw [List.getElem?_eq_getElem hylt, hyroot]
          rwa [List.getElem?_set_ne (Ne.symm hyx)] at h1
      next hyroot =>
        rcases eq_or_ne y x with hyx | hyx
        · have h2 : (fa.set x r)[y]? = some r := by rw [hyx]; exact hset
          have hpr : (fa.set x r)[y] = r :=
            Option.some_inj.mp ((List.getElem?_eq_getElem hylt).symm.trans h2)
          rw [hpr] at h
          have hrs : RootP fa r s := ih r s h
          have hs : s = r := RootP_root_determ hrroot hrs
          rw [hs, hyx]
          exact hxr
        · have hp : fa[y]? = some ((fa.set x r)[y]) := by
            have h1 : (fa.set x r)[y]? = some ((fa.set x r)[y]) :=
              List.getElem?_eq_getElem hylt
            rwa [List.getElem?_set_ne (Ne.symm hyx)] at h1
          rw [RootP_step hp hyroot]
          exact ih ((fa.set x r)[y]) s h
    next => simp at h

theorem RootP_set_root {fa : List Nat} {x r : Nat} (hxr : RootP fa x r) {y s : Nat} :
    RootP (fa.set x r) y s ↔ RootP fa y s := by
  by_cases hxroot : fa[x]? = some x
  · have : r = x := RootP_root_determ hxroot hxr
    subst this
    rw [set_getElem?_self hxroot]
  · constructor
    · rintro ⟨f, hf⟩
      exact RootP_set_root_aux2 hxr hxroot f y s hf
    · rintro ⟨f, hf⟩
      exact RootP_set_root_aux1 hxr hxroot f y s hf

theorem findAux_preserves {fa : List Nat} :
    ∀ {f x fa2 r}, findAux f fa x = some (fa2, r) → ∀ {y s}, (RootP fa2 y s ↔ RootP fa y s) := by
  intro f
  induction f with
  | zero => intro x fa2 r h; simp [findAux] at h
  | succ f ih =>
    intro x fa2 r h y s
    have hroot := findAux_rootAux h
    rw [findAux] at h
    split at h
    case isTrue hx =>
      split at h
      case isTrue hxroot => cases h; rfl
      case isFalse hxroot =>
        split at h
        · exact absurd h (by simp)
        case h_2 fa3 r3 heq =>
          cases h
          have hxr : RootP fa x r := by
            rw [rootAux, dif_pos hx, if_neg hxroot] at hroot
            rw [RootP_step (List.getElem?_eq_getElem hx) hxroot]
            exact ⟨f, hroot⟩
          have hxr3 : RootP fa3 x r := (ih heq).mpr hxr
          rw [RootP_set_root hxr3]
          exact ih heq
    case isFalse => simp at h

theorem findAux_entries {fa : List Nat}
    (hent : ∀ (i p : Nat), fa[i]? = some p → p < fa.length) :
    ∀ {f x fa2 r}, findAux f fa x = some (fa2, r) →
      ∀ (i p : Nat), fa2[i]? = some p → p < fa2.length := by
  intro f
  induction f with
  | zero => intro x fa2 r h; simp [findAux] at h
  | succ f ih =>
    intro x fa2 r h i p hip
    have hlen := findAux_length h
    have hroot := findAux_rootAux h
    rw [findAux] at h
    split at h
    case isTrue hx =>
      split at h
      case isTrue hxroot =>
        cases h
        exact hent i p hip
      case isFalse hxroot =>
        split at h
        · exact absurd h (by simp)
        case h_2 fa3 r3 heq =>
          cases h
          have hlen3 := findAux_length heq
          rcases eq_or_ne x i with rfl | hne
          · have : p = r := by
              rw [List.getElem?_set_eq_of_lt r (by rw [hlen3]; exact hx)] at hip
              exact (Option.some_inj.mp hip).symm
            subst this
            have : fa[p]? = some p := rootAux_isRoot hroot
            have := hent p p this
            simpa [hlen3] using this
          · rw [List.getElem?_set_ne hne] at hip
            have := ih heq i p hip
            simpa [hlen3] using this
    case isFalse => simp at h

theorem WFfa_findAux {fa : List Nat} (hwf : WFfa fa) {f x fa2 r}
    (h : findAux f fa x = some (fa2, r)) : WFfa fa2 := by
  have hlen := findAux_length h
  constructor
  · exact findAux_entries hwf.1 h
  · intro y hy
    obtain ⟨t, ht⟩ := hwf.2 y (hlen ▸ hy)
    exact ⟨t, (findAux_preserves h).mpr ht⟩

/-- One parent-pointer step (identity outside the array). -/
def ufStep (fa : List Nat) (y : Nat) : Nat :=
  (fa[y]?).getD y

theorem ufStep_eq {fa : List Nat} {y : Nat} (hy : y < fa.length) :
    ufStep fa y = fa[y] := by
  unfold ufStep
  rw [List.getElem?_eq_getElem hy]
  rfl

theorem iterate_lt {fa : List Nat} (hent : ∀ (i p : Nat), fa[i]? = some p → p < fa.length)
    {x : Nat} (hx : x < fa.length) : ∀ k, (ufStep fa)^[k] x < fa.length := by
  intro k
  induction k with
  | zero => simpa using hx
  | succ k ih =>
    rw [Function.iterate_succ_apply', ufStep_eq ih]
    exact hent ((ufStep fa)^[k] x) _ (List.getElem?_eq_getElem ih)

theorem rootAux_of_iterate {fa : List Nat}
    (hent : ∀ (i p : Nat), fa[i]? = some p → p < fa.length) :
    ∀ k x r, x < fa.length → (ufStep fa)^[k] x = r → fa[r]? = some r →
      rootAux (k + 1) fa x = some r := by
  intro k
  induction k with
  | zero =>
    intro x r hx hit hroot
    simp only [Function.iterate_zero, id] at hit
    subst hit
    have : fa[x] = x := by
      have := List.getElem?_eq_getElem hx
      rw [hroot] at this
      exact (Option.some_inj.mp this).symm
    rw [rootAux, dif_pos hx, if_pos this]
  | succ k ih =>
    intro x r hx hit hroot
    by_cases hxroot : fa[x] = x
    · have hfix : ufStep fa x = x := by rw [ufStep_eq hx, hxroot]
      have : (ufStep fa)^[k + 1] x = x := Function.iterate_fixed hfix (k + 1)
      rw [this] at hit
      subst hit
      rw [rootAux, dif_pos hx, if_pos hxroot]
    · rw [rootAux, dif_pos hx, if_neg hxroot]
      have hpl : fa[x] < fa.length := hent x (fa[x]) (List.getElem?_eq_getElem hx)
      refine ih (fa[x]) r hpl ?_ hroot
      rw [Function.iterate_succ_apply, ufStep_eq hx] at hit
      exact hit

theorem rootAux_to_iterate {fa : List Nat} :
    ∀ f x r, rootAux f fa x = some r → ∃ k, k < f ∧ (ufStep fa)^[k] x = r := by
  intro f
  induction f with
  | zero => intro x r h; simp [rootAux] at h
  | succ f ih =>
    intro x r h
    rw [rootAux] at h
    split at h
    next hx =>
      split at h
      next hroot =>
        cases h
        exact ⟨0, Nat.succ_pos f, rfl⟩
      next hroot =>
        obtain ⟨k, hk, hit⟩ := ih (fa[x]) r h
        refine ⟨k + 1, Nat.succ_lt_succ hk, ?_⟩
        rw [Function.iterate_succ_apply, ufStep_eq hx]
        exact hit
    next => simp at h

theorem rootAux_fuel_length {fa : List Nat} (hwf : WFfa fa) {x : Nat}
    (hx : x < fa.length) : ∃ r, rootAux fa.length fa x = some r := by
  obtain ⟨r0, f, hf⟩ := hwf.2 x hx
  obtain ⟨k, _, hit⟩ := rootAux_to_iterate f x r0 hf
  have hroot0 : fa[r0]? = some r0 := rootAux_isRoot hf
  have hPex : ∃ m, fa[((ufStep fa)^[m] x)]? = some ((ufStep fa)^[m] x) :=
    ⟨k, by rw [hit]; exact hroot0⟩
  have hPk0 := Nat.find_spec hPex
  have hinj : ∀ i j, i < j → j ≤ Nat.find hPex →
      (ufStep fa)^[i] x ≠ (ufStep fa)^[j] x := by
    intro i j hij hj heq
    have h1 := Function.iterate_add_apply (ufStep fa) (Nat.find hPex - j) i x
    have h2 := Function.iterate_add_apply (ufStep fa) (Nat.find hPex - j) j x
    rw [heq] at h1
    have hkey : (ufStep fa)^[Nat.find hPex - j + i] x = (ufStep fa)^[Nat.find hPex] x := by
      rw [h1, ← h2]
      congr 1
      omega
    refine Nat.find_min hPex (m := Nat.find hPex - j + i) (by omega) ?_
    rw [hkey]
    exact hPk0
  have hcard : Nat.find hPex + 1 ≤ fa.length := by
    have hF : Function.Injective
        (fun i : Fin (Nat.find hPex + 1) =>
          (⟨(ufStep fa)^[i.1] x, iterate_lt hwf.1 hx i.1⟩ : Fin fa.length)) := by
      intro i j hfij
      have hval : (ufStep fa)^[i.1] x = (ufStep fa)^[j.1] x := congrArg Fin.val hfij
      rcases lt_trichotomy i.1 j.1 with h1 | h1 | h1
      · exact absurd hval (hinj i.1 j.1 h1 (Nat.lt_succ_iff.mp j.isLt))
      · exact Fin.ext h1
      · exact absurd hval.symm (hinj j.1 i.1 h1 (Nat.lt_succ_iff.mp i.isLt))
    have := Fintype.card_le_of_injective _ hF
    simpa using this
  refine ⟨(ufStep fa)^[Nat.find hPex] x, ?_⟩
  have hstep := rootAux_of_iterate hwf.1 (Nat.find hPex) x ((ufStep fa)^[Nat.find hPex] x)
    hx rfl hPk0
  exact rootAux_mono hstep hcard

theorem findAux_none {fa : List Nat} {x : Nat} (hx : fa.length ≤ x) :
    ∀ f, findAux f fa x = none := by
  intro f
  cases f with
  | zero => rfl
  | succ f => rw [findAux, dif_neg (Nat.not_lt.mpr hx)]

theorem find_none {s : UnionFindSet} {x : Nat} (hx : s.fa.length ≤ x) :
    s.find x = none := by
  rw [UnionFindSet.find, findAux_none hx]

theorem find_succeeds {s : UnionFindSet} (hwf : s.WF) {x : Nat}
    (hx : x < s.fa.length) : ∃ s1 r, s.find x = some (s1, r) := by
  obtain ⟨r, hr⟩ := rootAux_fuel_length hwf hx
  obtain ⟨fa2, hfa2⟩ := findAux_of_rootAux hr
  exact ⟨⟨fa2, s.size⟩, r, by rw [UnionFindSet.find, hfa2]⟩

theorem find_spec {s : UnionFindSet} (hwf : s.WF) {x : Nat} {s1 : UnionFindSet} {r : Nat}
    (h : s.find x = some (s1, r)) :
    RootP s.fa x r ∧ s1.WF ∧ s1.fa.length = s.fa.length ∧ s1.size = s.size ∧
      (∀ y t, RootP s1.fa y t ↔ RootP s.fa y t) := by
  rw [UnionFindSet.find] at h
  split at h
  case h_1 fa2 r2 heq =>
    cases h
    refine ⟨⟨s.fa.length, findAux_rootAux heq⟩, WFfa_findAux hwf heq, findAux_length heq,
      rfl, fun y t => findAux_preserves heq⟩
  case h_2 => exact absurd h (by simp)

theorem find_parts {s : UnionFindSet} {x : Nat} {s1 : UnionFindSet} {r : Nat}
    (h : s.find x = some (s1, r)) :
    RootP s.fa x r ∧ s1.fa.length = s.fa.length ∧ s1.size = s.size ∧
      (∀ y t, RootP s1.fa y t ↔ RootP s.fa y t) := by
  rw [UnionFindSet.find] at h
  split at h
  case h_1 fa2 r2 heq =>
    cases h
    exact ⟨⟨s.fa.length, findAux_rootAux heq⟩, findAux_length heq, rfl,
      fun y t => findAux_preserves heq⟩
  case h_2 => exact absurd h (by simp)

theorem UFRel_symm {s : UnionFindSet} {a b : Nat} (h : UFRel s a b) : UFRel s b a := by
  obtain ⟨t, h1, h2⟩ := h
  exact ⟨t, h2, h1⟩

theorem UFRel_trans {s : UnionFindSet} {a b c : Nat} (h1 : UFRel s a b)
    (h2 : UFRel s b c) : UFRel s a c := by
  obtain ⟨t, ha, hb⟩ := h1
  obtain ⟨u, hb', hc⟩ := h2
  exact ⟨t, ha, (hb.determ hb') ▸ hc⟩

theorem UFRel_root_left {s : UnionFindSet} {a b t : Nat} (h : UFRel s a b)
    (hb : RootP s.fa b t) : RootP s.fa a t := by
  obtain ⟨u, ha, hb'⟩ := h
  exact (hb'.determ hb) ▸ ha

theorem RootP_set_union_fwd {fa : List Nat} {rx ry : Nat} (hrx : fa[rx]? = some rx)
    (hry : fa[ry]? = some ry) (hne : rx ≠ ry) :
    ∀ f y s, rootAux f (fa.set ry rx) y = some s →
      (RootP fa y s ∧ s ≠ ry) ∨ (RootP fa y ry ∧ s = rx) := by
  have hrylt : ry < fa.length := (List.getElem?_eq_some.mp hry).1
  have hset : (fa.set ry rx)[ry]? = some rx := List.getElem?_set_eq_of_lt rx hrylt
  intro f
  induction f with
  | zero => intro y s h; simp [rootAux] at h
  | succ f ih =>
    intro y s h
    rw [rootAux] at h
    split at h
    next hylt =>
      have hylt' : y < fa.length := by simpa using hylt
      split at h
      next hyroot =>
        cases h
        rcases eq_or_ne y ry with hyx | hyx
        · exfalso
          have h1 : (fa.set ry rx)[y]? = some y := by
            rw [List.getElem?_eq_getElem hylt, hyroot]
          have h2 : (fa.set ry rx)[y]? = some rx := by rw [hyx]; exact hset
          have h3 : y = rx := Option.some_inj.mp (h1.symm.trans h2)
          exact hne (h3 ▸ hyx)
        · refine Or.inl ⟨RootP_of_root ?_, hyx⟩
          have h1 : (fa.set ry rx)[y]? = some y := by
            rw [List.getElem?_eq_getElem hylt, hyroot]
          rwa [List.getElem?_set_ne (Ne.symm hyx)] at h1
      next hyroot =>
        rcases eq_or_ne y ry with hyx | hyx
        · have h2 : (fa.set ry rx)[y]? = some rx := by rw [hyx]; exact hset
          have hpr : (fa.set ry rx)[y] = rx :=
            Option.some_inj.mp ((List.getElem?_eq_getElem hylt).symm.trans h2)
          rw [hpr] at h
          rcases ih rx s h with ⟨hs, hsne⟩ | ⟨hs, hseq⟩
          · have : s = rx := RootP_root_determ hrx hs
            refine Or.inr ⟨?_, this⟩
            rw [hyx]
            exact RootP_of_root hry
          · exact absurd (RootP_root_determ hrx hs) (Ne.symm hne)
        · have hp : (fa.set ry rx)[y]? = some (fa[y]) := by
            rw [List.getElem?_set_ne (Ne.symm hyx), List.getElem?_eq_getElem hylt']
          have hpfa : fa[y]? = some (fa[y]) := List.getElem?_eq_getElem hylt'
          have hpeq : (fa.set ry rx)[y] = fa[y] :=
            Option.some_inj.mp ((List.getElem?_eq_getElem hylt).symm.trans hp)
          have hyroot' : fa[y] ≠ y := fun hc => hyroot (by rw [hpeq, hc])
          rcases ih ((fa.set ry rx)[y]) s h with ⟨hs, hsne⟩ | ⟨hs, hseq⟩
          · rw [hpeq] at hs
            exact Or.inl ⟨(RootP_step hpfa hyroot').mpr hs, hsne⟩
          · rw [hpeq] at hs
            exact Or.inr ⟨(RootP_step hpfa hyroot').mpr hs, hseq⟩
    next => simp at h

theorem RootP_set_union_bwd1 {fa : List Nat} {rx ry : Nat} (_hrx : fa[rx]? = some rx)
    (hry : fa[ry]? = some ry) (_hne : rx ≠ ry) :
    ∀ f y s, rootAux f fa y = some s → s ≠ ry → RootP (fa.set ry rx) y s := by
  intro f
  induction f with
  | zero => intro y s h; simp [rootAux] at h
  | succ f ih =>
    intro y s h hsne
    rw [rootAux] at h
    split at h
    next hylt =>
      split at h
      next hyroot =>
        cases h
        refine RootP_of_root ?_
        rw [List.getElem?_set_ne (Ne.symm hsne), List.getElem?_eq_getElem hylt, hyroot]
      next hyroot =>
        have hyne : y ≠ ry := by
          intro hc
          apply hyroot
          have := List.getElem?_eq_some.mp (hc ▸ hry)
          obtain ⟨h1, h2⟩ := this
          exact h2
        have hp : (fa.set ry rx)[y]? = some (fa[y]) := by
          rw [List.getElem?_set_ne (Ne.symm hyne), List.getElem?_eq_getElem hylt]
        rw [RootP_step hp hyroot]
        exact ih (fa[y]) s h hsne
    next => simp at h

theorem RootP_set_union_bwd2 {fa : List Nat} {rx ry : Nat} (hrx : fa[rx]? = some rx)
    (hry : fa[ry]? = some ry) (hne : rx ≠ ry) :
    ∀ f y, rootAux f fa y = some ry → RootP (fa.set ry rx) y rx := by
  have hrylt : ry < fa.length := (List.getElem?_eq_some.mp hry).1
  have hset : (fa.set ry rx)[ry]? = some rx := List.getElem?_set_eq_of_lt rx hrylt
  have hryrx : RootP (fa.set ry rx) ry rx := by
    rw [RootP_step hset hne]
    refine RootP_of_root ?_
    rw [List.getElem?_set_ne (Ne.symm hne)]
    exact hrx
  intro f
  induction f with
  | zero => intro y h; simp [rootAux] at h
  | succ f ih =>
    intro y h
    rw [rootAux] at h
    split at h
    next hylt =>
      split at h
      next hyroot =>
        cases h
        exact hryrx
      next hyroot =>
        have hyne : y ≠ ry := by
          intro hc
          apply hyroot
          obtain ⟨h1, h2⟩ := List.getElem?_eq_some.mp (hc ▸ hry)
          exact h2
        have hp : (fa.set ry rx)[y]? = some (fa[y]) := by
          rw [List.getElem?_set_ne (Ne.symm hyne), List.getElem?_eq_getElem hylt]
        rw [RootP_step hp hyroot]
        exact ih (fa[y]) h
    next => simp at h

theorem RootP_set_union {fa : List Nat} {rx ry : Nat} (hrx : fa[rx]? = some rx)
    (hry : fa[ry]? = some ry) (hne : rx ≠ ry) {y s : Nat} :
    RootP (fa.set ry rx) y s ↔ ((RootP fa y s ∧ s ≠ ry) ∨ (RootP fa y ry ∧ s = rx)) := by
  constructor
  · rintro ⟨f, hf⟩
    exact RootP_set_union_fwd hrx hry hne f y s hf
  · rintro (⟨⟨f, hf⟩, hsne⟩ | ⟨⟨f, hf⟩, hseq⟩)
    · exact RootP_set_union_bwd1 hrx hry hne f y s hf hsne
    · rw [hseq]
      exact RootP_set_union_bwd2 hrx hry hne f y hf

theorem WFfa_set_union {fa : List Nat} {rx ry : Nat} (hwf : WFfa fa)
    (hrx : fa[rx]? = some rx) (hry : fa[ry]? = some ry) (hne : rx ≠ ry) :
    WFfa (fa.set ry rx) := by
  have hrxlt : rx < fa.length := (List.getElem?_eq_some.mp hrx).1
  have hrylt : ry < fa.length := (List.getElem?_eq_some.mp hry).1
  constructor
  · intro i p hip
    rw [List.length_set]
    rcases eq_or_ne ry i with hri | hri
    · rw [← hri, List.getElem?_set_eq_of_lt rx hrylt] at hip
      rw [← Option.some_inj.mp hip]
      exact hrxlt
    · rw [List.getElem?_set_ne hri] at hip
      exact hwf.1 i p hip
  · intro z hz
    rw [List.length_set] at hz
    obtain ⟨t, ht⟩ := hwf.2 z hz
    rcases eq_or_ne t ry with hty | hty
    · exact ⟨rx, (RootP_set_union hrx hry hne).mpr (Or.inr ⟨hty ▸ ht, rfl⟩)⟩
    · exact ⟨t, (RootP_set_union hrx hry hne).mpr (Or.inl ⟨ht, hty⟩)⟩

theorem union_spec {s : UnionFindSet} (hwf : s.WF) {x y : Nat}
    (hx : x < s.fa.length) (hy : y < s.fa.length) :
    ∃ s', s.union x y = some s' ∧ s'.WF ∧ s'.fa.length = s.fa.length ∧
      s'.size = s.size ∧ UFRel s' x y ∧
      (∀ a b, UFRel s' a b ↔
        (UFRel s a b ∨ (UFRel s a x ∧ UFRel s y b) ∨ (UFRel s a y ∧ UFRel s x b))) := by
  obtain ⟨s1, rx, h1⟩ := find_succeeds hwf hx
  obtain ⟨hrpx, hwf1, hlen1, hsz1, hpres1⟩ := find_spec hwf h1
  obtain ⟨s2, ry, h2⟩ := find_succeeds hwf1 (by rw [hlen1]; exact hy)
  obtain ⟨hrpy1, hwf2, hlen2, hsz2, hpres2⟩ := find_spec hwf1 h2
  have hrpy : RootP s.fa y ry := (hpres1 y ry).mp hrpy1
  -- roots in the final array s2.fa
  have hrpx2 : RootP s2.fa x rx := (hpres2 x rx).mpr ((hpres1 x rx).mpr hrpx)
  have hrpy2 : RootP s2.fa y ry := (hpres2 y ry).mpr hrpy1
  have hpres : ∀ a b, RootP s2.fa a b ↔ RootP s.fa a b := fun a b =>
    (hpres2 a b).trans (hpres1 a b)
  have hrxroot : s2.fa[rx]? = some rx := RootP_isRoot hrpx2
  have hryroot : s2.fa[ry]? = some ry := RootP_isRoot hrpy2
  simp only [UnionFindSet.union, h1, h2]
  by_cases hne : rx = ry
  · -- already in the same component; state unchanged (s2)
    rw [if_neg (by simpa using hne)]
    refine ⟨s2, rfl, hwf2, by rw [hlen2, hlen1], by rw [hsz2, hsz1],
      ⟨rx, hrpx2, hne ▸ hrpy2⟩, ?_⟩
    intro a b
    have hab : UFRel s2 a b ↔ UFRel s a b := by
      constructor
      · rintro ⟨t, ha, hb⟩
        exact ⟨t, (hpres a t).mp ha, (hpres b t).mp hb⟩
      · rintro ⟨t, ha, hb⟩
        exact ⟨t, (hpres a t).mpr ha, (hpres b t).mpr hb⟩
    rw [hab]
    constructor
    · exact Or.inl
    · rintro (h | ⟨hax, hyb⟩ | ⟨hay, hxb⟩)
      · exact h
      · exact UFRel_trans (UFRel_trans hax ⟨rx, hrpx, hne ▸ hrpy⟩) hyb
      · exact UFRel_trans (UFRel_trans hay ⟨ry, hne ▸ hrpy, hne ▸ hrpx⟩) hxb
  · rw [if_pos (by simpa using hne)]
    set fa3 := s2.fa.set ry rx with hfa3
    have hchar : ∀ a t, RootP fa3 a t ↔
        ((RootP s.fa a t ∧ t ≠ ry) ∨ (RootP s.fa a ry ∧ t = rx)) := by
      intro a t
      rw [hfa3, RootP_set_union hrxroot hryroot hne, hpres a t, hpres a ry]
    refine ⟨⟨fa3, s2.size⟩, rfl, ?_, ?_, by rw [hsz2, hsz1], ?_, ?_⟩
    · exact WFfa_set_union hwf2 hrxroot hryroot hne
    · show fa3.length = s.fa.length
      rw [hfa3, List.length_set, hlen2, hlen1]
    · exact ⟨rx, (hchar x rx).mpr (Or.inl ⟨hrpx, hne⟩),
        (hchar y rx).mpr (Or.inr ⟨hrpy, rfl⟩)⟩
    · intro a b
      constructor
      · rintro ⟨t, ha, hb⟩
        rcases (hchar a t).mp ha with ⟨ha', htne⟩ | ⟨ha', hteq⟩
        · rcases (hchar b t).mp hb with ⟨hb', _⟩ | ⟨hb', hteq⟩
          · exact Or.inl ⟨t, ha', hb'⟩
          · -- a has root rx, b has root ry
            refine Or.inr (Or.inl ⟨⟨t, ha', hteq ▸ hrpx⟩, ⟨ry, hrpy, hb'⟩⟩)
        · rcases (hchar b t).mp hb with ⟨hb', htne⟩ | ⟨hb', _⟩
          · exact Or.inr (Or.inr ⟨⟨ry, ha', hrpy⟩, ⟨t, hteq ▸ hrpx, hb'⟩⟩)
          · exact Or.inl ⟨ry, ha', hb'⟩
      · rintro (⟨t, ha, hb⟩ | ⟨hax, hyb⟩ | ⟨hay, hxb⟩)
        · rcases eq_or_ne t ry with hty | hty
          · exact ⟨rx, (hchar a rx).mpr (Or.inr ⟨hty ▸ ha, rfl⟩),
              (hchar b rx).mpr (Or.inr ⟨hty ▸ hb, rfl⟩)⟩
          · exact ⟨t, (hchar a t).mpr (Or.inl ⟨ha, hty⟩),
              (hchar b t).mpr (Or.inl ⟨hb, hty⟩)⟩
        · have ha : RootP s.fa a rx := UFRel_root_left hax hrpx
          have hb : RootP s.fa b ry := UFRel_root_left (UFRel_symm hyb) hrpy
          exact ⟨rx, (hchar a rx).mpr (Or.inl ⟨ha, hne⟩),
            (hchar b rx).mpr (Or.inr ⟨hb, rfl⟩)⟩
        · have ha : RootP s.fa a ry := UFRel_root_left hay hrpy
          have hb : RootP s.fa b rx := UFRel_root_left (UFRel_symm hxb) hrpx
          exact ⟨rx, (hchar a rx).mpr (Or.inr ⟨ha, rfl⟩),
            (hchar b rx).mpr (Or.inl ⟨hb, hne⟩)⟩

/-! ## Closure lemmas -/

theorem RelJoin_mono_ps {P : Nat → Nat → Prop} {ps qs : List (Nat × Nat)}
    (hsub : ∀ p, p ∈ ps → p ∈ qs) {a b : Nat} (h : RelJoin P ps a b) :
    RelJoin P qs a b := by
  induction h with
  | base h => exact RelJoin.base h
  | edge h => exact RelJoin.edge (hsub _ h)
  | refl a => exact RelJoin.refl a
  | symm _ ih => exact RelJoin.symm ih
  | trans _ _ ih1 ih2 => exact RelJoin.trans ih1 ih2

theorem RelJoin_congr_mem {P : Nat → Nat → Prop} {ps qs : List (Nat × Nat)}
    (hiff : ∀ p, p ∈ ps ↔ p ∈ qs) {a b : Nat} :
    RelJoin P ps a b ↔ RelJoin P qs a b :=
  ⟨RelJoin_mono_ps (fun p hp => (hiff p).mp hp),
   RelJoin_mono_ps (fun p hp => (hiff p).mpr hp)⟩

theorem RelJoin_cons_iff {P : Nat → Nat → Prop} {u v : Nat} {ps : List (Nat × Nat)}
    {a b : Nat} :
    RelJoin P ((u, v) :: ps) a b ↔
      (RelJoin P ps a b ∨ (RelJoin P ps a u ∧ RelJoin P ps v b) ∨
        (RelJoin P ps a v ∧ RelJoin P ps u b)) := by
  constructor
  · intro h
    induction h with
    | base h => exact Or.inl (RelJoin.base h)
    | edge h =>
      rcases List.mem_cons.mp h with heq | hmem
      · obtain ⟨h1, h2⟩ := Prod.mk.injEq .. ▸ heq
        cases h1
        cases h2
        exact Or.inr (Or.inl ⟨RelJoin.refl _, RelJoin.refl _⟩)
      · exact Or.inl (RelJoin.edge hmem)
    | refl a => exact Or.inl (RelJoin.refl a)
    | symm _ ih =>
      rcases ih with h | ⟨h1, h2⟩ | ⟨h1, h2⟩
      · exact Or.inl h.symm
      · exact Or.inr (Or.inr ⟨h2.symm, h1.symm⟩)
      · exact Or.inr (Or.inl ⟨h2.symm, h1.symm⟩)
    | trans _ _ ih1 ih2 =>
      rcases ih1 with h | ⟨h1, h2⟩ | ⟨h1, h2⟩ <;>
        rcases ih2 with g | ⟨g1, g2⟩ | ⟨g1, g2⟩
      · exact Or.inl (h.trans g)
      · exact Or.inr (Or.inl ⟨h.trans g1, g2⟩)
      · exact Or.inr (Or.inr ⟨h.trans g1, g2⟩)
      · exact Or.inr (Or.inl ⟨h1, h2.trans g⟩)
      · exact Or.inr (Or.inl ⟨h1, g2⟩)
      · exact Or.inl (h1.trans g2)
      · exact Or.inr (Or.inr ⟨h1, h2.trans g⟩)
      · exact Or.inl (h1.trans g2)
      · exact Or.inr (Or.inr ⟨h1, g2⟩)
  · have hlift : ∀ {x y : Nat}, RelJoin P ps x y → RelJoin P ((u, v) :: ps) x y :=
      fun h => RelJoin_mono_ps (fun p hp => List.mem_cons_of_mem _ hp) h
    have hedge : RelJoin P ((u, v) :: ps) u v := RelJoin.edge (List.mem_cons_self _ _)
    rintro (h | ⟨h1, h2⟩ | ⟨h1, h2⟩)
    · exact hlift h
    · exact ((hlift h1).trans hedge).trans (hlift h2)
    · exact ((hlift h1).trans hedge.symm).trans (hlift h2)

theorem RelJoin_absorb {P : Nat → Nat → Prop} {u v : Nat} {ps : List (Nat × Nat)}
    (huv : RelJoin P ps u v) {a b : Nat} :
    RelJoin P ((u, v) :: ps) a b ↔ RelJoin P ps a b := by
  rw [RelJoin_cons_iff]
  constructor
  · rintro (h | ⟨h1, h2⟩ | ⟨h1, h2⟩)
    · exact h
    · exact (h1.trans huv).trans h2
    · exact (h1.trans huv.symm).trans h2
  · exact Or.inl

theorem RelJoin_nil_UFRel {s : UnionFindSet} {a b : Nat}
    (h : RelJoin (UFRel s) [] a b) : UFRel s a b ∨ a = b := by
  induction h with
  | base h => exact Or.inl h
  | edge h => simp at h
  | refl a => exact Or.inr rfl
  | symm _ ih =>
    rcases ih with h | h
    · exact Or.inl (UFRel_symm h)
    · exact Or.inr h.symm
  | trans _ _ ih1 ih2 =>
    rcases ih1 with h1 | h1 <;> rcases ih2 with h2 | h2
    · exact Or.inl (UFRel_trans h1 h2)
    · exact Or.inl (h2 ▸ h1)
    · exact Or.inl (h1 ▸ h2)
    · exact Or.inr (h1.trans h2)

theorem RelJoin_rebase {P Q : Nat → Nat → Prop} {u v : Nat} {ops : List (Nat × Nat)}
    (hPu : P u u) (hPv : P v v)
    (hQ : ∀ x y, Q x y ↔ (P x y ∨ (P x u ∧ P v y) ∨ (P x v ∧ P u y))) {a b : Nat} :
    RelJoin Q ops a b ↔ RelJoin P ((u, v) :: ops) a b := by
  constructor
  · intro h
    induction h with
    | base h =>
      have hedge : RelJoin P ((u, v) :: ops) u v := RelJoin.edge (List.mem_cons_self _ _)
      rcases (hQ _ _).mp h with h | ⟨h1, h2⟩ | ⟨h1, h2⟩
      · exact RelJoin.base h
      · exact ((RelJoin.base h1).trans hedge).trans (RelJoin.base h2)
      · exact ((RelJoin.base h1).trans hedge.symm).trans (RelJoin.base h2)
    | edge h => exact RelJoin.edge (List.mem_cons_of_mem _ h)
    | refl a => exact RelJoin.refl a
    | symm _ ih => exact ih.symm
    | trans _ _ ih1 ih2 => exact ih1.trans ih2
  · intro h
    induction h with
    | base h => exact RelJoin.base ((hQ _ _).mpr (Or.inl h))
    | edge h =>
      rcases List.mem_cons.mp h with heq | hmem
      · obtain ⟨h1, h2⟩ := Prod.mk.injEq .. ▸ heq
        cases h1
        cases h2
        exact RelJoin.base ((hQ _ _).mpr (Or.inr (Or.inl ⟨hPu, hPv⟩)))
      · exact RelJoin.edge hmem
    | refl a => exact RelJoin.refl a
    | symm _ ih => exact ih.symm
    | trans _ _ ih1 ih2 => exact ih1.trans ih2

/-! ## Fresh disjoint-set and union sequences -/

theorem init_getElem {n x : Nat} (hx : x < n + 1) :
    (UnionFindSet.init n).fa[x]? = some x := by
  unfold UnionFindSet.init
  simp [List.getElem?_range hx]

theorem init_length (n : Nat) : (UnionFindSet.init n).fa.length = n + 1 := by
  unfold UnionFindSet.init
  simp

theorem init_WF (n : Nat) : (UnionFindSet.init n).WF := by
  constructor
  · intro i p hip
    rw [init_length]
    unfold UnionFindSet.init at hip
    simp only at hip
    rcases Nat.lt_or_ge i (n + 1) with hi | hi
    · rw [List.getElem?_range hi] at hip
      rw [← Option.some_inj.mp hip]
      exact hi
    · rw [List.getElem?_eq_none (by simpa using hi)] at hip
      exact absurd hip (by simp)
  · intro x hx
    rw [init_length] at hx
    exact ⟨x, RootP_of_root (init_getElem hx)⟩

theorem init_UFRel {n a b : Nat} :
    UFRel (UnionFindSet.init n) a b ↔ (a = b ∧ a < n + 1) := by
  constructor
  · rintro ⟨t, ha, hb⟩
    have hal : a < n + 1 := by
      have := RootP_lt ha
      rwa [init_length] at this
    have hbl : b < n + 1 := by
      have := RootP_lt hb
      rwa [init_length] at this
    have h1 : t = a := RootP_root_determ (init_getElem hal) ha
    have h2 : t = b := RootP_root_determ (init_getElem hbl) hb
    exact ⟨h1.symm.trans h2, hal⟩
  · rintro ⟨rfl, ha⟩
    exact ⟨a, RootP_of_root (init_getElem ha), RootP_of_root (init_getElem ha)⟩

theorem UFRel_refl_of_lt {s : UnionFindSet} (hwf : s.WF) {a : Nat}
    (ha : a < s.fa.length) : UFRel s a a := by
  obtain ⟨r, hr⟩ := hwf.2 a ha
  exact ⟨r, hr, hr⟩

theorem applyUnions_spec : ∀ (ops : List (Nat × Nat)) (s : UnionFindSet),
    s.WF → (∀ p ∈ ops, p.1 < s.fa.length ∧ p.2 < s.fa.length) →
    ∃ s', applyUnions s ops = some s' ∧ s'.WF ∧ s'.fa.length = s.fa.length ∧
      s'.size = s.size ∧
      (∀ a b, a < s.fa.length → b < s.fa.length →
        (UFRel s' a b ↔ RelJoin (UFRel s) ops a b)) := by
  intro ops
  induction ops with
  | nil =>
    intro s hwf _
    refine ⟨s, rfl, hwf, rfl, rfl, fun a b ha hb => ?_⟩
    constructor
    · exact RelJoin.base
    · intro h
      rcases RelJoin_nil_UFRel h with h | rfl
      · exact h
      · exact UFRel_refl_of_lt hwf ha
  | cons p ops ih =>
    intro s hwf hmem
    obtain ⟨u, v⟩ := p
    obtain ⟨hu, hv⟩ := hmem (u, v) (List.mem_cons_self _ _)
    obtain ⟨s1, hu1, hwf1, hlen1, hsz1, hrel1, hchar1⟩ := union_spec hwf hu hv
    obtain ⟨s', hs', hwf', hlen', hsz', hchar'⟩ := ih s1 hwf1
      (fun q hq => by
        rw [hlen1]
        exact hmem q (List.mem_cons_of_mem _ hq))
    refine ⟨s', ?_, hwf', by rw [hlen', hlen1], by rw [hsz', hsz1],
      fun a b ha hb => ?_⟩
    · rw [applyUnions, hu1]
      exact hs'
    · rw [hchar' a b (by rw [hlen1]; exact ha) (by rw [hlen1]; exact hb)]
      refine RelJoin_rebase ?_ ?_ ?_
      · exact UFRel_refl_of_lt hwf hu
      · exact UFRel_refl_of_lt hwf hv
      · exact fun x y => hchar1 x y

/-! ## Kruskal loop analysis -/

theorem RelJoin_congr_base {P Q : Nat → Nat → Prop} {ps : List (Nat × Nat)}
    (h : ∀ x y, P x y ↔ Q x y) {a b : Nat} :
    RelJoin P ps a b ↔ RelJoin Q ps a b := by
  constructor <;> intro hj
  · induction hj with
    | base hb => exact RelJoin.base ((h _ _).mp hb)
    | edge he => exact RelJoin.edge he
    | refl a => exact RelJoin.refl a
    | symm _ ih => exact ih.symm
    | trans _ _ ih1 ih2 => exact ih1.trans ih2
  · induction hj with
    | base hb => exact RelJoin.base ((h _ _).mpr hb)
    | edge he => exact RelJoin.edge he
    | refl a => exact RelJoin.refl a
    | symm _ ih => exact ih.symm
    | trans _ _ ih1 ih2 => exact ih1.trans ih2

theorem roots_eq_iff_UFRel {s : UnionFindSet} (_hwf : s.WF) {x y : Nat}
    {s1 s2 : UnionFindSet} {rx ry : Nat} (h1 : s.find x = some (s1, rx))
    (h2 : s1.find y = some (s2, ry)) : (rx = ry ↔ UFRel s x y) := by
  obtain ⟨hrpx, _, _, hpres1⟩ := find_parts h1
  obtain ⟨hrpy1, _, _, _⟩ := find_parts h2
  have hrpy : RootP s.fa y ry := (hpres1 y ry).mp hrpy1
  constructor
  · intro h
    exact ⟨rx, hrpx, h ▸ hrpy⟩
  · rintro ⟨t, ha, hb⟩
    exact (hrpx.determ ha).trans (hb.determ hrpy)

theorem kruskalGo_spec : ∀ (l : List Edge) (s : UnionFindSet) (n : Nat),
    s.fa.length = n + 1 → s.WF →
    (∀ e ∈ l, e.src < n + 1 ∧ e.dst < n + 1) →
    ∃ T s', kruskalGo l s = some (T, s') ∧ s'.WF ∧ s'.fa.length = n + 1 ∧
      s'.size = s.size ∧ T.Sublist l ∧
      (∀ a b, a < n + 1 → b < n + 1 →
        (UFRel s' a b ↔ RelJoin (UFRel s) (pairsOf l) a b)) ∧
      (∀ a b, a < n + 1 → b < n + 1 →
        (UFRel s' a b ↔ RelJoin (UFRel s) (pairsOf T) a b)) := by
  intro l
  induction l with
  | nil =>
    intro s n hlen hwf _
    refine ⟨[], s, rfl, hwf, hlen, rfl, List.Sublist.refl _, ?_, ?_⟩ <;>
    · intro a b ha hb
      constructor
      · exact RelJoin.base
      · intro h
        rcases RelJoin_nil_UFRel h with h | rfl
        · exact h
        · exact UFRel_refl_of_lt hwf (by rw [hlen]; exact ha)
  | cons e es ih =>
    intro s n hlen hwf hmem
    obtain ⟨hsrc, hdst⟩ := hmem e (List.mem_cons_self _ _)
    obtain ⟨s1, ru, hf1⟩ := find_succeeds hwf (by rw [hlen]; exact hsrc)
    obtain ⟨_, hlen1, hsz1, hpres1⟩ := find_parts hf1
    have hwf1 : s1.WF := (find_spec hwf hf1).2.1
    obtain ⟨s2, rv, hf2⟩ := find_succeeds hwf1 (by rw [hlen1, hlen]; exact hdst)
    obtain ⟨_, hlen2, hsz2, hpres2⟩ := find_parts hf2
    have hwf2 : s2.WF := (find_spec hwf1 hf2).2.1
    have hcond := roots_eq_iff_UFRel hwf hf1 hf2
    have hrel2 : ∀ a b, UFRel s2 a b ↔ UFRel s a b := by
      intro a b
      constructor
      · rintro ⟨t, ha, hb⟩
        exact ⟨t, (hpres1 a t).mp ((hpres2 a t).mp ha),
          (hpres1 b t).mp ((hpres2 b t).mp hb)⟩
      · rintro ⟨t, ha, hb⟩
        exact ⟨t, (hpres2 a t).mpr ((hpres1 a t).mpr ha),
          (hpres2 b t).mpr ((hpres1 b t).mpr hb)⟩
    by_cases heq : ru = rv
    · -- edge skipped: endpoints already connected
      have huv : UFRel s e.src e.dst := hcond.mp heq
      obtain ⟨T, s', hgo, hwf', hlen', hsz', hsub, hchar, hcharT⟩ :=
        ih s2 n (by rw [hlen2, hlen1, hlen]) hwf2
          (fun e' he' => hmem e' (List.mem_cons_of_mem _ he'))
      refine ⟨T, s', ?_, hwf', hlen', by rw [hsz', hsz2, hsz1], hsub.cons e, ?_, ?_⟩
      · simp only [kruskalGo, hf1, hf2]
        rw [if_neg (by simpa using heq)]
        exact hgo
      · intro a b ha hb
        rw [hchar a b ha hb]
        have h1 : RelJoin (UFRel s2) (pairsOf es) a b ↔
            RelJoin (UFRel s) (pairsOf es) a b := RelJoin_congr_base hrel2
        rw [h1]
        show _ ↔ RelJoin (UFRel s) ((e.src, e.dst) :: pairsOf es) a b
        rw [RelJoin_absorb (RelJoin.base huv)]
      · intro a b ha hb
        rw [hcharT a b ha hb]
        exact RelJoin_congr_base hrel2
    · -- edge taken: union and recurse
      obtain ⟨s3, hun, hwf3, hlen3, hsz3, hrel3uv, hchar3⟩ :=
        union_spec hwf2 (x := e.src) (y := e.dst)
          (by rw [hlen2, hlen1, hlen]; exact hsrc)
          (by rw [hlen2, hlen1, hlen]; exact hdst)
      obtain ⟨T, s', hgo, hwf', hlen', hsz', hsub, hchar, hcharT⟩ :=
        ih s3 n (by rw [hlen3, hlen2, hlen1, hlen]) hwf3
          (fun e' he' => hmem e' (List.mem_cons_of_mem _ he'))
      have hrebase : ∀ {ps : List (Nat × Nat)} {a b : Nat},
          RelJoin (UFRel s3) ps a b ↔
            RelJoin (UFRel s) ((e.src, e.dst) :: ps) a b := by
        intro ps a b
        refine RelJoin_rebase ?_ ?_ ?_
        · exact UFRel_refl_of_lt hwf (by rw [hlen]; exact hsrc)
        · exact UFRel_refl_of_lt hwf (by rw [hlen]; exact hdst)
        · intro x y
          rw [hchar3 x y, hrel2 x y]
          constructor
          · rintro (h | ⟨h1, h2⟩ | ⟨h1, h2⟩)
            · exact Or.inl h
            · exact Or.inr (Or.inl ⟨(hrel2 x e.src).mp h1, (hrel2 e.dst y).mp h2⟩)
            · exact Or.inr (Or.inr ⟨(hrel2 x e.dst).mp h1, (hrel2 e.src y).mp h2⟩)
          · rintro (h | ⟨h1, h2⟩ | ⟨h1, h2⟩)
            · exact Or.inl h
            · exact Or.inr (Or.inl ⟨(hrel2 x e.src).mpr h1, (hrel2 e.dst y).mpr h2⟩)
            · exact Or.inr (Or.inr ⟨(hrel2 x e.dst).mpr h1, (hrel2 e.src y).mpr h2⟩)
      refine ⟨e :: T, s', ?_, hwf', hlen', by rw [hsz', hsz3, hsz2, hsz1],
        hsub.cons₂ e, ?_, ?_⟩
      · simp only [kruskalGo, hf1, hf2]
        rw [if_pos heq]
        simp only [hun, hgo]
      · intro a b ha hb
        rw [hchar a b ha hb]
        exact hrebase
      · intro a b ha hb
        rw [hcharT a b ha hb]
        exact hrebase

theorem insertByWeight_perm (e : Edge) (l : List Edge) :
    List.Perm (insertByWeight e l) (e :: l) := by
  induction l with
  | nil => exact List.Perm.refl _
  | cons f fs ih =>
    rw [insertByWeight]
    split
    · exact List.Perm.refl _
    · exact (ih.cons f).trans (List.Perm.swap e f fs)

theorem sortEdges_perm (l : List Edge) : List.Perm (sortEdges l) l := by
  induction l with
  | nil => exact List.Perm.refl _
  | cons e es ih => exact (insertByWeight_perm e (sortEdges es)).trans (ih.cons e)

theorem mem_sortEdges {l : List Edge} {e : Edge} : e ∈ sortEdges l ↔ e ∈ l :=
  (sortEdges_perm l).mem_iff

theorem insertByWeight_sorted {e : Edge} {l : List Edge}
    (h : l.Pairwise (fun a b => a.weight ≤ b.weight)) :
    (insertByWeight e l).Pairwise (fun a b => a.weight ≤ b.weight) := by
  induction l with
  | nil => simp [insertByWeight]
  | cons f fs ih =>
    rw [insertByWeight]
    rcases List.pairwise_cons.mp h with ⟨hf, hfs⟩
    split
    next hle =>
      refine List.pairwise_cons.mpr ⟨?_, h⟩
      intro b hb
      rcases List.mem_cons.mp hb with rfl | hb
      · exact hle
      · exact le_trans hle (hf b hb)
    next hgt =>
      refine List.pairwise_cons.mpr ⟨?_, ih hfs⟩
      intro b hb
      rcases List.mem_cons.mp ((insertByWeight_perm e fs).mem_iff.mp hb) with rfl | h1
      · exact Nat.le_of_not_le hgt
      · exact hf b h1

theorem sortEdges_sorted (l : List Edge) :
    (sortEdges l).Pairwise (fun a b => a.weight ≤ b.weight) := by
  induction l with
  | nil => exact List.Pairwise.nil
  | cons e es ih => exact insertByWeight_sorted ih

/-- Running the Kruskal loop on a state where every edge's endpoints are
already connected selects nothing and only compresses paths. -/
theorem kruskalGo_skip_all : ∀ (l : List Edge) (s : UnionFindSet), s.WF →
    (∀ e ∈ l, UFRel s e.src e.dst) →
    ∃ s', kruskalGo l s = some ([], s') ∧ s'.WF ∧
      (∀ a b, UFRel s' a b ↔ UFRel s a b) := by
  intro l
  induction l with
  | nil => exact fun s hwf _ => ⟨s, rfl, hwf, fun a b => Iff.rfl⟩
  | cons e es ih =>
    intro s hwf hconn
    have huv := hconn e (List.mem_cons_self _ _)
    have hsrc : e.src < s.fa.length := by
      obtain ⟨t, ha, _⟩ := huv
      exact RootP_lt ha
    have hdst : e.dst < s.fa.length := by
      obtain ⟨t, _, hb⟩ := huv
      exact RootP_lt hb
    obtain ⟨s1, ru, hf1⟩ := find_succeeds hwf hsrc
    obtain ⟨_, hlen1, _, hpres1⟩ := find_parts hf1
    have hwf1 : s1.WF := (find_spec hwf hf1).2.1
    obtain ⟨s2, rv, hf2⟩ := find_succeeds hwf1 (by rw [hlen1]; exact hdst)
    obtain ⟨_, hlen2, _, hpres2⟩ := find_parts hf2
    have hwf2 : s2.WF := (find_spec hwf1 hf2).2.1
    have heq : ru = rv := (roots_eq_iff_UFRel hwf hf1 hf2).mpr huv
    have hrel2 : ∀ a b, UFRel s2 a b ↔ UFRel s a b := by
      intro a b
      constructor
      · rintro ⟨t, ha, hb⟩
        exact ⟨t, (hpres1 a t).mp ((hpres2 a t).mp ha),
          (hpres1 b t).mp ((hpres2 b t).mp hb)⟩
      · rintro ⟨t, ha, hb⟩
        exact ⟨t, (hpres2 a t).mpr ((hpres1 a t).mpr ha),
          (hpres2 b t).mpr ((hpres1 b t).mpr hb)⟩
    obtain ⟨s', hgo, hwf', hrel'⟩ := ih s2 hwf2
      (fun e' he' => (hrel2 e'.src e'.dst).mpr (hconn e' (List.mem_cons_of_mem _ he')))
    refine ⟨s', ?_, hwf', fun a b => (hrel' a b).trans (hrel2 a b)⟩
    simp only [kruskalGo, hf1, hf2]
    rw [if_neg (by simpa using heq)]
    exact hgo

/-! ## Deciding connectivity and counting components -/

def vertBound (ps : List (Nat × Nat)) (x y : Nat) : Nat :=
  ps.foldr (fun p m => max (max p.1 p.2) m) (max x y)

theorem le_vertBound_xy (ps : List (Nat × Nat)) (x y : Nat) :
    x ≤ vertBound ps x y ∧ y ≤ vertBound ps x y := by
  induction ps with
  | nil => exact ⟨Nat.le_max_left x y, Nat.le_max_right x y⟩
  | cons p ps ih =>
    exact ⟨le_trans ih.1 (Nat.le_max_right _ _), le_trans ih.2 (Nat.le_max_right _ _)⟩

theorem le_vertBound_mem {ps : List (Nat × Nat)} {x y : Nat} :
    ∀ p ∈ ps, p.1 ≤ vertBound ps x y ∧ p.2 ≤ vertBound ps x y := by
  induction ps with
  | nil => intro p hp; simp at hp
  | cons q ps ih =>
    intro p hp
    rcases List.mem_cons.mp hp with rfl | hp
    · constructor
      · exact le_trans (le_trans (Nat.le_max_left _ _) (Nat.le_max_left _ _))
          (le_refl _)
      · exact le_trans (Nat.le_max_right _ _) (Nat.le_max_left _ _)
    · obtain ⟨h1, h2⟩ := ih p hp
      exact ⟨le_trans h1 (Nat.le_max_right _ _), le_trans h2 (Nat.le_max_right _ _)⟩

def connDecide (ps : List (Nat × Nat)) (x y : Nat) : Bool :=
  match applyUnions (UnionFindSet.init (vertBound ps x y)) ps with
  | none => false
  | some s =>
    match s.find x with
    | none => false
    | some (s1, rx) =>
      match s1.find y with
      | none => false
      | some (_, ry) => rx == ry

theorem RelJoin_init_iff_Conn {n : Nat} {ps : List (Nat × Nat)} {a b : Nat} :
    RelJoin (UFRel (UnionFindSet.init n)) ps a b ↔ Conn ps a b := by
  constructor
  · intro h
    induction h with
    | base hb =>
      obtain ⟨heq, _⟩ := init_UFRel.mp hb
      exact heq ▸ RelJoin.refl _
    | edge he => exact RelJoin.edge he
    | refl a => exact RelJoin.refl a
    | symm _ ih => exact ih.symm
    | trans _ _ ih1 ih2 => exact ih1.trans ih2
  · intro h
    induction h with
    | base hb => exact hb ▸ RelJoin.refl _
    | edge he => exact RelJoin.edge he
    | refl a => exact RelJoin.refl a
    | symm _ ih => exact ih.symm
    | trans _ _ ih1 ih2 => exact ih1.trans ih2

theorem conn_iff_connDecide (ps : List (Nat × Nat)) (x y : Nat) :
    Conn ps x y ↔ connDecide ps x y = true := by
  obtain ⟨hx, hy⟩ := le_vertBound_xy ps x y
  have hxlt : x < vertBound ps x y + 1 := Nat.lt_succ_of_le hx
  have hylt : y < vertBound ps x y + 1 := Nat.lt_succ_of_le hy
  obtain ⟨s, hs, hwf, hlen, _, hchar⟩ := applyUnions_spec ps
    (UnionFindSet.init (vertBound ps x y)) (init_WF _)
    (fun p hp => by
      rw [init_length]
      obtain ⟨h1, h2⟩ := le_vertBound_mem p hp
      exact ⟨Nat.lt_succ_of_le h1, Nat.lt_succ_of_le h2⟩)
  rw [init_length] at hlen
  obtain ⟨s1, rx, hf1⟩ := find_succeeds hwf (by rw [hlen]; exact hxlt)
  have hwf1 : s1.WF := (find_spec hwf hf1).2.1
  have hlen1 := (find_parts hf1).2.1
  obtain ⟨s2, ry, hf2⟩ := find_succeeds hwf1 (by rw [hlen1, hlen]; exact hylt)
  have hiff : rx = ry ↔ UFRel s x y := roots_eq_iff_UFRel hwf hf1 hf2
  unfold connDecide
  simp only [hs, hf1, hf2]
  have hbridge : UFRel s x y ↔ Conn ps x y := by
    rw [hchar x y (by rw [init_length]; exact hxlt) (by rw [init_length]; exact hylt)]
    exact RelJoin_init_iff_Conn
  rw [← hbridge, ← hiff]
  simp

instance connDecidable (ps : List (Nat × Nat)) (x y : Nat) : Decidable (Conn ps x y) :=
  decidable_of_iff _ (conn_iff_connDecide ps x y).symm

/-- v is the minimal vertex of its connected class (a class leader). -/
def isLeader (ps : List (Nat × Nat)) (v : Nat) : Prop :=
  ∀ u ∈ Finset.Ico 1 v, ¬ Conn ps u v

instance isLeaderDecPred (ps : List (Nat × Nat)) : DecidablePred (isLeader ps) :=
  fun v => by unfold isLeader; infer_instance

/-- Number of connected components among the switches 1..n: count the class
leaders (the minimal vertex of each class). -/
def ncomp (n : Nat) (ps : List (Nat × Nat)) : Nat :=
  ((Finset.Icc 1 n).filter (isLeader ps)).card

theorem Conn_nil {a b : Nat} : Conn [] a b ↔ a = b := by
  constructor
  · intro h
    induction h with
    | base hb => exact hb
    | edge he => simp at he
    | refl a => rfl
    | symm _ ih => exact ih.symm
    | trans _ _ ih1 ih2 => exact ih1.trans ih2
  · rintro rfl
    exact RelJoin.refl a

theorem ncomp_nil (n : Nat) : ncomp n [] = n := by
  unfold ncomp
  rw [Finset.filter_true_of_mem]
  · simp
  · intro v _ u hu hc
    rw [Finset.mem_Ico] at hu
    exact absurd (Conn_nil.mp hc) (Nat.ne_of_lt hu.2)

theorem ncomp_congr_mem {n : Nat} {ps qs : List (Nat × Nat)}
    (h : ∀ p, p ∈ ps ↔ p ∈ qs) : ncomp n ps = ncomp n qs := by
  unfold ncomp
  congr 1
  apply Finset.filter_congr
  intro v _
  constructor
  · intro hv u hu hc
    exact hv u hu ((RelJoin_congr_mem h).mpr hc)
  · intro hv u hu hc
    exact hv u hu ((RelJoin_congr_mem h).mp hc)

theorem ncomp_mono {n : Nat} {ps qs : List (Nat × Nat)}
    (h : ∀ p, p ∈ ps → p ∈ qs) : ncomp n qs ≤ ncomp n ps := by
  unfold ncomp
  apply Finset.card_le_card
  intro v hv
  rw [Finset.mem_filter] at hv ⊢
  exact ⟨hv.1, fun u hu hc => hv.2 u hu (RelJoin_mono_ps h hc)⟩

theorem ncomp_le (n : Nat) (ps : List (Nat × Nat)) : ncomp n ps ≤ n := by
  unfold ncomp
  calc ((Finset.Icc 1 n).filter _).card ≤ (Finset.Icc 1 n).card :=
        Finset.card_filter_le _ _
    _ = n := by rw [Nat.card_Icc]; omega

theorem ncomp_pos {n : Nat} (hn : 1 ≤ n) (ps : List (Nat × Nat)) :
    1 ≤ ncomp n ps := by
  unfold ncomp
  rw [Nat.succ_le_iff, Finset.card_pos]
  refine ⟨1, Finset.mem_filter.mpr ⟨?_, ?_⟩⟩
  · rw [Finset.mem_Icc]
    exact ⟨le_refl 1, hn⟩
  · intro u hu
    rw [Finset.mem_Ico] at hu
    omega

theorem ncomp_cons_conn {n u v : Nat} {ps : List (Nat × Nat)}
    (hc : Conn ps u v) : ncomp n ((u, v) :: ps) = ncomp n ps := by
  unfold ncomp
  congr 1
  apply Finset.filter_congr
  intro w _
  constructor
  · intro hw x hx hcx
    exact hw x hx (RelJoin_mono_ps (fun p hp => List.mem_cons_of_mem _ hp) hcx)
  · intro hw x hx hcx
    exact hw x hx ((RelJoin_absorb hc).mp hcx)

theorem ncomp_congr_rel {n : Nat} {ps qs : List (Nat × Nat)}
    (h : ∀ x y, Conn ps x y ↔ Conn qs x y) : ncomp n ps = ncomp n qs := by
  unfold ncomp
  congr 1
  apply Finset.filter_congr
  intro v _
  constructor
  · exact fun hv u hu hc => hv u hu ((h u v).mpr hc)
  · exact fun hv u hu hc => hv u hu ((h u v).mp hc)

theorem Conn_swap_iff {u v x y : Nat} {ps : List (Nat × Nat)} :
    Conn ((u, v) :: ps) x y ↔ Conn ((v, u) :: ps) x y := by
  constructor
  · intro h
    rcases RelJoin_cons_iff.mp h with h | ⟨h1, h2⟩ | ⟨h1, h2⟩
    · exact RelJoin_cons_iff.mpr (Or.inl h)
    · exact RelJoin_cons_iff.mpr (Or.inr (Or.inr ⟨h1, h2⟩))
    · exact RelJoin_cons_iff.mpr (Or.inr (Or.inl ⟨h1, h2⟩))
  · intro h
    rcases RelJoin_cons_iff.mp h with h | ⟨h1, h2⟩ | ⟨h1, h2⟩
    · exact RelJoin_cons_iff.mpr (Or.inl h)
    · exact RelJoin_cons_iff.mpr (Or.inr (Or.inr ⟨h1, h2⟩))
    · exact RelJoin_cons_iff.mpr (Or.inr (Or.inl ⟨h1, h2⟩))

/-- Core of the merge count: if a < b are the class leaders of u and v,
adding the edge (u, v) removes b from the leader set and changes nothing
else. -/
theorem ncomp_merge_core {n a b u v : Nat} {ps : List (Nat × Nat)}
    (ha : a ∈ Finset.Icc 1 n) (hb : b ∈ Finset.Icc 1 n)
    (hau : Conn ps a u) (hbv : Conn ps b v)
    (_halead : isLeader ps a) (hblead : isLeader ps b)
    (hlba : ∀ z ∈ Finset.Icc 1 n, Conn ps z u → a ≤ z)
    (hlbb : ∀ z ∈ Finset.Icc 1 n, Conn ps z v → b ≤ z)
    (hab : a < b) :
    ncomp n ((u, v) :: ps) + 1 = ncomp n ps := by
  have ha1 := (Finset.mem_Icc.mp ha).1
  have han := (Finset.mem_Icc.mp ha).2
  have hb1 := (Finset.mem_Icc.mp hb).1
  have hlift : ∀ {x w : Nat}, Conn ps x w → Conn ((u, v) :: ps) x w :=
    fun h => RelJoin_mono_ps (fun p hp => List.mem_cons_of_mem _ hp) h
  have hedge : Conn ((u, v) :: ps) u v := RelJoin.edge (List.mem_cons_self _ _)
  have key : (Finset.Icc 1 n).filter (isLeader ((u, v) :: ps)) =
      ((Finset.Icc 1 n).filter (isLeader ps)).erase b := by
    ext w
    rw [Finset.mem_erase, Finset.mem_filter, Finset.mem_filter]
    constructor
    · rintro ⟨hwS, hld⟩
      refine ⟨?_, hwS, fun x hx hc => hld x hx (hlift hc)⟩
      intro hwb
      have hconnba : Conn ((u, v) :: ps) b a :=
        ((hlift hbv).trans hedge.symm).trans (hlift hau).symm
      exact (hwb ▸ hld) a (Finset.mem_Ico.mpr ⟨ha1, hab⟩) hconnba.symm
    · rintro ⟨hwb, hwS, hld⟩
      refine ⟨hwS, ?_⟩
      intro x hx hc
      rw [Finset.mem_Ico] at hx
      rcases RelJoin_cons_iff.mp hc with h | ⟨h1, h2⟩ | ⟨h1, h2⟩
      · exact hld x (Finset.mem_Ico.mpr hx) h
      · -- x ~ u and v ~ w : then w is the leader of v's class, i.e. w = b
        have hble : b ≤ w := hlbb w hwS h2.symm
        rcases Nat.lt_or_ge b w with hlt | hge
        · exact hld b (Finset.mem_Ico.mpr ⟨hb1, hlt⟩) (hbv.trans h2)
        · exact hwb (Nat.le_antisymm hble hge).symm
      · -- x ~ v and u ~ w : then w = a, but x ~ v forces b ≤ x < a < b
        have hale : a ≤ w := hlba w hwS h2.symm
        have hwa : w = a := by
          rcases Nat.lt_or_ge a w with hlt | hge
          · exact absurd (hld a (Finset.mem_Ico.mpr ⟨ha1, hlt⟩) (hau.trans h2)) id
          · exact Nat.le_antisymm hge hale
        have hxS : x ∈ Finset.Icc 1 n := by
          rw [Finset.mem_Icc]
          exact ⟨hx.1, by omega⟩
        have := hlbb x hxS h1
        omega
  have hbmem : b ∈ (Finset.Icc 1 n).filter (isLeader ps) :=
    Finset.mem_filter.mpr ⟨hb, hblead⟩
  have hcard : 1 ≤ ((Finset.Icc 1 n).filter (isLeader ps)).card :=
    Finset.card_pos.mpr ⟨b, hbmem⟩
  unfold ncomp
  rw [key, Finset.card_erase_of_mem hbmem]
  omega

theorem exists_leader {n : Nat} {ps : List (Nat × Nat)} {u : Nat}
    (hu : u ∈ Finset.Icc 1 n) :
    ∃ a, a ∈ Finset.Icc 1 n ∧ Conn ps a u ∧ isLeader ps a ∧
      (∀ z ∈ Finset.Icc 1 n, Conn ps z u → a ≤ z) := by
  have hne : ((Finset.Icc 1 n).filter (fun z => Conn ps z u)).Nonempty :=
    ⟨u, Finset.mem_filter.mpr ⟨hu, RelJoin.refl u⟩⟩
  have hmem := Finset.min'_mem _ hne
  rw [Finset.mem_filter] at hmem
  refine ⟨Finset.min' _ hne, hmem.1, hmem.2, ?_, ?_⟩
  · intro x hx hc
    rw [Finset.mem_Ico] at hx
    have hxS : x ∈ Finset.Icc 1 n := by
      rw [Finset.mem_Icc]
      have := (Finset.mem_Icc.mp hmem.1).2
      exact ⟨hx.1, by omega⟩
    exact absurd (Finset.min'_le ((Finset.Icc 1 n).filter (fun z => Conn ps z u)) x
      (Finset.mem_filter.mpr ⟨hxS, hc.trans hmem.2⟩)) (Nat.not_le.mpr hx.2)
  · exact fun z hz hc =>
      Finset.min'_le ((Finset.Icc 1 n).filter (fun t => Conn ps t u)) z
        (Finset.mem_filter.mpr ⟨hz, hc⟩)

theorem ncomp_cons_merge {n u v : Nat} {ps : List (Nat × Nat)}
    (hu : u ∈ Finset.Icc 1 n) (hv : v ∈ Finset.Icc 1 n) (hnc : ¬ Conn ps u v) :
    ncomp n ((u, v) :: ps) + 1 = ncomp n ps := by
  obtain ⟨a, haS, hac, halead, hale⟩ := @exists_leader _ ps _ hu
  obtain ⟨b, hbS, hbc, hblead, hble⟩ := @exists_leader _ ps _ hv
  have hab : a ≠ b := by
    intro heq
    exact hnc (hac.symm.trans (heq ▸ hbc))
  rcases Nat.lt_or_ge a b with hlt | hge
  · exact ncomp_merge_core haS hbS hac hbc halead hblead hale hble hlt
  · have hlt : b < a := by omega
    have h1 : ncomp n ((v, u) :: ps) + 1 = ncomp n ps :=
      ncomp_merge_core hbS haS hbc hac hblead halead hble hale hlt
    rw [← h1]
    congr 1
    exact ncomp_congr_rel (fun x y => Conn_swap_iff)

theorem pairsOf_cons (e : Edge) (es : List Edge) :
    pairsOf (e :: es) = (e.src, e.dst) :: pairsOf es := rfl

theorem kruskalGo_count : ∀ (l : List Edge) (s : UnionFindSet) (done : List (Nat × Nat))
    (n : Nat), s.WF → s.fa.length = n + 1 →
    (∀ e ∈ l, e.src ∈ Finset.Icc 1 n ∧ e.dst ∈ Finset.Icc 1 n) →
    (∀ a b, a < n + 1 → b < n + 1 → (UFRel s a b ↔ Conn done a b)) →
    ∀ T s', kruskalGo l s = some (T, s') →
      T.length + ncomp n (pairsOf l ++ done) = ncomp n done := by
  intro l
  induction l with
  | nil =>
    intro s done n _ _ _ _ T s' h
    rw [kruskalGo] at h
    cases h
    simp [pairsOf]
  | cons e es ih =>
    intro s done n hwf hlen hmem hinv T s' h
    obtain ⟨hsrcI, hdstI⟩ := hmem e (List.mem_cons_self _ _)
    have hsrc : e.src < n + 1 := by
      have := (Finset.mem_Icc.mp hsrcI).2
      omega
    have hdst : e.dst < n + 1 := by
      have := (Finset.mem_Icc.mp hdstI).2
      omega
    rw [kruskalGo] at h
    split at h
    case h_1 => exact absurd h (by simp)
    case h_2 s1 ru heq1 =>
      obtain ⟨_, hlen1, hsz1, hpres1⟩ := find_parts heq1
      have hwf1 : s1.WF := (find_spec hwf heq1).2.1
      split at h
      case h_1 => exact absurd h (by simp)
      case h_2 s2 rv heq2 =>
        obtain ⟨_, hlen2, hsz2, hpres2⟩ := find_parts heq2
        have hwf2 : s2.WF := (find_spec hwf1 heq2).2.1
        have hrel2 : ∀ a b, UFRel s2 a b ↔ UFRel s a b := by
          intro a b
          constructor
          · rintro ⟨t, ha, hb⟩
            exact ⟨t, (hpres1 a t).mp ((hpres2 a t).mp ha),
              (hpres1 b t).mp ((hpres2 b t).mp hb)⟩
          · rintro ⟨t, ha, hb⟩
            exact ⟨t, (hpres2 a t).mpr ((hpres1 a t).mpr ha),
              (hpres2 b t).mpr ((hpres1 b t).mpr hb)⟩
        have hcond := roots_eq_iff_UFRel hwf heq1 heq2
        split at h
        case isTrue hne =>
          -- edge taken
          have hnuv : ¬ UFRel s e.src e.dst := fun hr => hne (hcond.mpr hr)
          have hncdone : ¬ Conn done e.src e.dst :=
            fun hc => hnuv ((hinv e.src e.dst hsrc hdst).mpr hc)
          split at h
          case h_1 => exact absurd h (by simp)
          case h_2 s3 heq3 =>
            obtain ⟨s3', heq3', hwf3, hlen3, hsz3, _, hchar3⟩ :=
              union_spec hwf2 (x := e.src) (y := e.dst)
                (by rw [hlen2, hlen1, hlen]; exact hsrc)
                (by rw [hlen2, hlen1, hlen]; exact hdst)
            rw [heq3] at heq3'
            cases heq3'
            split at h
            case h_1 => exact absurd h (by simp)
            case h_2 t sfin heq4 =>
              cases h
              have hinv3 : ∀ a b, a < n + 1 → b < n + 1 →
                  (UFRel s3 a b ↔ Conn ((e.src, e.dst) :: done) a b) := by
                intro a b ha hb
                rw [hchar3 a b, hrel2 a b, hrel2 a e.src, hrel2 e.dst b,
                  hrel2 a e.dst, hrel2 e.src b]
                constructor
                · rintro (h | ⟨h1, h2⟩ | ⟨h1, h2⟩)
                  · exact RelJoin_cons_iff.mpr
                      (Or.inl ((hinv a b ha hb).mp h))
                  · exact RelJoin_cons_iff.mpr (Or.inr (Or.inl
                      ⟨(hinv a e.src ha hsrc).mp h1, (hinv e.dst b hdst hb).mp h2⟩))
                  · exact RelJoin_cons_iff.mpr (Or.inr (Or.inr
                      ⟨(hinv a e.dst ha hdst).mp h1, (hinv e.src b hsrc hb).mp h2⟩))
                · intro h
                  rcases RelJoin_cons_iff.mp h with h | ⟨h1, h2⟩ | ⟨h1, h2⟩
                  · exact Or.inl ((hinv a b ha hb).mpr h)
                  · exact Or.inr (Or.inl
                      ⟨(hinv a e.src ha hsrc).mpr h1, (hinv e.dst b hdst hb).mpr h2⟩)
                  · exact Or.inr (Or.inr
                      ⟨(hinv a e.dst ha hdst).mpr h1, (hinv e.src b hsrc hb).mpr h2⟩)
              have hcount := ih s3 ((e.src, e.dst) :: done) n hwf3
                (by rw [hlen3, hlen2, hlen1, hlen])
                (fun e' he' => hmem e' (List.mem_cons_of_mem _ he'))
                hinv3 _ _ heq4
              have hmerge := ncomp_cons_merge hsrcI hdstI hncdone
              have hmemeq : ncomp n (pairsOf es ++ ((e.src, e.dst) :: done)) =
                  ncomp n (pairsOf (e :: es) ++ done) := by
                apply ncomp_congr_mem
                intro p
                rw [pairsOf_cons]
                simp only [List.mem_append, List.mem_cons]
                tauto
              rw [hmemeq] at hcount
              simp only [List.length_cons]
              omega
        case isFalse hne =>
          -- edge skipped
          have huv : UFRel s e.src e.dst := hcond.mp (by simpa using hne)
          have hconndone : Conn done e.src e.dst := (hinv e.src e.dst hsrc hdst).mp huv
          have hcount := ih s2 done n hwf2 (by rw [hlen2, hlen1, hlen])
            (fun e' he' => hmem e' (List.mem_cons_of_mem _ he'))
            (fun a b ha hb => (hrel2 a b).trans (hinv a b ha hb)) T s' h
          have habs : ncomp n (pairsOf (e :: es) ++ done) =
              ncomp n (pairsOf es ++ done) := by
            rw [pairsOf_cons]
            show ncomp n ((e.src, e.dst) :: (pairsOf es ++ done)) = _
            exact ncomp_cons_conn
              (RelJoin_mono_ps (fun p hp => List.mem_append_right _ hp) hconndone)
          rw [habs]
          exact hcount

/-! ## Weight-threshold analysis of the Kruskal output -/

theorem dropWhile_lt_not {t : Nat} : ∀ {l : List Edge},
    l.Pairwise (fun a b => a.weight ≤ b.weight) →
    ∀ e ∈ l.dropWhile (fun e => e.weight < t), ¬ e.weight < t := by
  intro l
  induction l with
  | nil => intro _ e he; simp [List.dropWhile] at he
  | cons f fs ih =>
    intro hsort e he
    rw [List.dropWhile_cons] at he
    obtain ⟨hf, hfs⟩ := List.pairwise_cons.mp hsort
    split at he
    next => exact ih hfs e he
    next hft =>
      have hft' : ¬ f.weight < t := by simpa using hft
      rcases List.mem_cons.mp he with rfl | he
      · exact hft'
      · have := hf e he
        omega

theorem takeWhile_mem_iff {t : Nat} {l : List Edge}
    (hsort : l.Pairwise (fun a b => a.weight ≤ b.weight)) {e : Edge} :
    e ∈ l.takeWhile (fun e => e.weight < t) ↔ e ∈ l ∧ e.weight < t := by
  constructor
  · intro h
    exact ⟨(List.takeWhile_sublist _).subset h, by simpa using List.mem_takeWhile_imp h⟩
  · rintro ⟨hmem, hlt⟩
    have hsplit : l = l.takeWhile (fun e => e.weight < t) ++
        l.dropWhile (fun e => e.weight < t) := (List.takeWhile_append_dropWhile ..).symm
    rcases List.mem_append.mp (hsplit ▸ hmem) with h | h
    · exact h
    · exact absurd hlt (dropWhile_lt_not hsort e h)

theorem kruskalGo_append : ∀ {A B : List Edge} {s sm s2 : UnionFindSet}
    {T1 T2 : List Edge}, kruskalGo A s = some (T1, sm) →
    kruskalGo B sm = some (T2, s2) →
    kruskalGo (A ++ B) s = some (T1 ++ T2, s2) := by
  intro A
  induction A with
  | nil =>
    intro B s sm s2 T1 T2 h1 h2
    rw [kruskalGo] at h1
    cases h1
    simpa using h2
  | cons e es ih =>
    intro B s sm s2 T1 T2 h1 h2
    rw [kruskalGo] at h1
    rw [List.cons_append, kruskalGo]
    cases hfind1 : UnionFindSet.find s e.src with
    | none =>
      rw [hfind1] at h1
      simp at h1
    | some pr =>
      obtain ⟨s1, ru⟩ := pr
      simp only [hfind1] at h1 ⊢
      cases hfind2 : UnionFindSet.find s1 e.dst with
      | none =>
        rw [hfind2] at h1
        simp at h1
      | some pr2 =>
        obtain ⟨sf2, rv⟩ := pr2
        simp only [hfind2] at h1 ⊢
        by_cases hne : ru = rv
        · rw [if_neg (by simpa using hne)] at h1 ⊢
          exact ih h1 h2
        · rw [if_pos (by simpa using hne)] at h1 ⊢
          cases hunion : UnionFindSet.union sf2 e.src e.dst with
          | none =>
            rw [hunion] at h1
            simp at h1
          | some s3 =>
            simp only [hunion] at h1 ⊢
            cases hgo : kruskalGo es s3 with
            | none =>
              rw [hgo] at h1
              simp at h1
            | some pr3 =>
              obtain ⟨t, sx⟩ := pr3
              rw [hgo] at h1
              simp only at h1
              cases h1
              simp only [ih hgo h2, List.cons_append]

def maxWeight (E : List Edge) : Nat :=
  E.foldr (fun e m => max e.weight m) 0

theorem le_maxWeight {E : List Edge} : ∀ e ∈ E, e.weight ≤ maxWeight E := by
  induction E with
  | nil => intro e he; simp at he
  | cons f fs ih =>
    intro e he
    rcases List.mem_cons.mp he with rfl | he
    · exact Nat.le_max_left _ _
    · exact le_trans (ih e he) (Nat.le_max_right _ _)

theorem ncomp_drop_le {n : Nat} : ∀ (rs ps : List (Nat × Nat)),
    (∀ p ∈ rs, p.1 ∈ Finset.Icc 1 n ∧ p.2 ∈ Finset.Icc 1 n) →
    ncomp n ps ≤ ncomp n (rs ++ ps) + rs.length := by
  intro rs
  induction rs with
  | nil => intro ps _; simp
  | cons p rs ih =>
    intro ps hmem
    obtain ⟨h1, h2⟩ := hmem p (List.mem_cons_self _ _)
    have hih := ih ps (fun q hq => hmem q (List.mem_cons_of_mem _ hq))
    have hstep : ncomp n (rs ++ ps) ≤ ncomp n ((p.1, p.2) :: (rs ++ ps)) + 1 := by
      by_cases hc : Conn (rs ++ ps) p.1 p.2
      · rw [ncomp_cons_conn hc]
        omega
      · rw [← ncomp_cons_merge h1 h2 hc]
    have : ncomp n ((p.1, p.2) :: (rs ++ ps)) = ncomp n (p :: (rs ++ ps)) := by
      apply ncomp_congr_mem
      intro q
      simp
    rw [this] at hstep
    simp only [List.cons_append, List.length_cons]
    omega

theorem wsum_eq_sum_countP {W : Nat} : ∀ {T : List Edge}, (∀ e ∈ T, e.weight ≤ W) →
    wsum T = Finset.sum (Finset.Icc 1 W) (fun t => T.countP (fun e => t ≤ e.weight)) := by
  intro T
  induction T with
  | nil => intro _; simp [wsum]
  | cons e es ih =>
    intro hW
    have hsum : ∀ t, (e :: es).countP (fun x => decide (t ≤ x.weight)) =
        es.countP (fun x => decide (t ≤ x.weight)) + if t ≤ e.weight then 1 else 0 := by
      intro t
      rw [List.countP_cons]
      congr 1
      split
      next h => rw [if_pos (by simpa using h)]
      next h => rw [if_neg (by simpa using h)]
    calc wsum (e :: es) = e.weight + wsum es := by simp [wsum]
      _ = e.weight + Finset.sum (Finset.Icc 1 W)
            (fun t => es.countP (fun x => t ≤ x.weight)) := by
          rw [ih (fun x hx => hW x (List.mem_cons_of_mem _ hx))]
      _ = Finset.sum (Finset.Icc 1 W) (fun t => if t ≤ e.weight then 1 else 0) +
            Finset.sum (Finset.Icc 1 W) (fun t => es.countP (fun x => t ≤ x.weight)) := by
          congr 1
          have hcard : ((Finset.Icc 1 W).filter (fun t => t ≤ e.weight)) =
              Finset.Icc 1 e.weight := by
            ext t
            rw [Finset.mem_filter, Finset.mem_Icc, Finset.mem_Icc]
            have := hW e (List.mem_cons_self _ _)
            omega
          rw [← Finset.card_filter, hcard, Nat.card_Icc]
          omega
      _ = Finset.sum (Finset.Icc 1 W)
            (fun t => (e :: es).countP (fun x => t ≤ x.weight)) := by
          rw [← Finset.sum_add_distrib]
          apply Finset.sum_congr rfl
          intro t _
          rw [hsum t]
          omega

theorem pairsOf_mem_congr {l l2 : List Edge} (h : ∀ e, e ∈ l ↔ e ∈ l2) :
    ∀ p, p ∈ pairsOf l ↔ p ∈ pairsOf l2 := by
  intro p
  unfold pairsOf
  rw [List.mem_map, List.mem_map]
  constructor
  · rintro ⟨e, he, rfl⟩
    exact ⟨e, (h e).mp he, rfl⟩
  · rintro ⟨e, he, rfl⟩
    exact ⟨e, (h e).mpr he, rfl⟩

theorem pairsOf_mono {l l2 : List Edge} (h : ∀ e, e ∈ l → e ∈ l2) :
    ∀ p, p ∈ pairsOf l → p ∈ pairsOf l2 := by
  intro p hp
  unfold pairsOf at hp ⊢
  rw [List.mem_map] at hp ⊢
  obtain ⟨e, he, rfl⟩ := hp
  exact ⟨e, h e he, rfl⟩

theorem ncomp_congr_rel_Icc {n : Nat} {ps qs : List (Nat × Nat)}
    (h : ∀ x y, x ∈ Finset.Icc 1 n → y ∈ Finset.Icc 1 n →
      (Conn ps x y ↔ Conn qs x y)) : ncomp n ps = ncomp n qs := by
  unfold ncomp
  congr 1
  apply Finset.filter_congr
  intro v hv
  have hIco : ∀ u ∈ Finset.Ico 1 v, u ∈ Finset.Icc 1 n := by
    intro u hu
    rw [Finset.mem_Ico] at hu
    rw [Finset.mem_Icc]
    have := (Finset.mem_Icc.mp hv).2
    exact ⟨hu.1, by omega⟩
  constructor
  · exact fun hld u hu hc => hld u hu ((h u v (hIco u hu) hv).mpr hc)
  · exact fun hld u hu hc => hld u hu ((h u v (hIco u hu) hv).mp hc)

/--, as the spec states it: a sub-edge-set that induces the same
connectivity on the switches 1..n as the full edge set. -/
def spansEq (n : Nat) (S E : List Edge) : Prop :=
  ∀ x ∈ Finset.Icc 1 n, ∀ y ∈ Finset.Icc 1 n,
    (Conn (pairsOf S) x y ↔ Conn (pairsOf E) x y)

instance spansEqDec (n : Nat) (S E : List Edge) : Decidable (spansEq n S E) := by
  unfold spansEq
  infer_instance

theorem kruskal_init_facts {n : Nat} {E : List Edge}
    (hmem : ∀ e ∈ E, e.src ∈ Finset.Icc 1 n ∧ e.dst ∈ Finset.Icc 1 n) :
    ∃ T s2, kruskalGo (sortEdges E) (UnionFindSet.init n) = some (T, s2) ∧
      T.Sublist (sortEdges E) ∧
      T.length + ncomp n (pairsOf E) = n ∧
      spansEq n T E := by
  have hmem' : ∀ e ∈ sortEdges E, e.src < n + 1 ∧ e.dst < n + 1 := by
    intro e he
    obtain ⟨h1, h2⟩ := hmem e (mem_sortEdges.mp he)
    exact ⟨by have := (Finset.mem_Icc.mp h1).2; omega,
      by have := (Finset.mem_Icc.mp h2).2; omega⟩
  obtain ⟨T, s2, hgo, hwf2, hlen2, hsz2, hsub, hchar, hcharT⟩ :=
    kruskalGo_spec (sortEdges E) (UnionFindSet.init n) n (init_length n)
      (init_WF n) hmem'
  have hinv0 : ∀ a b, a < n + 1 → b < n + 1 →
      (UFRel (UnionFindSet.init n) a b ↔ Conn [] a b) := by
    intro a b ha hb
    rw [init_UFRel, Conn_nil]
    constructor
    · exact fun h => h.1
    · exact fun h => ⟨h, ha⟩
  have hcount := kruskalGo_count (sortEdges E) (UnionFindSet.init n) [] n
    (init_WF n) (init_length n)
    (fun e he => hmem e (mem_sortEdges.mp he)) hinv0 T s2 hgo
  rw [List.append_nil, ncomp_nil] at hcount
  have hpE : ncomp n (pairsOf (sortEdges E)) = ncomp n (pairsOf E) :=
    ncomp_congr_mem (pairsOf_mem_congr (fun e => mem_sortEdges))
  refine ⟨T, s2, hgo, hsub, by rw [← hpE]; exact hcount, ?_⟩
  intro x hx y hy
  have hx' : x < n + 1 := by have := (Finset.mem_Icc.mp hx).2; omega
  have hy' : y < n + 1 := by have := (Finset.mem_Icc.mp hy).2; omega
  have h1 : Conn (pairsOf T) x y ↔ UFRel s2 x y := by
    rw [hcharT x y hx' hy']
    exact RelJoin_init_iff_Conn.symm
  have h2 : UFRel s2 x y ↔ Conn (pairsOf (sortEdges E)) x y := by
    rw [hchar x y hx' hy']
    exact RelJoin_init_iff_Conn
  rw [h1, h2]
  exact RelJoin_congr_mem (pairsOf_mem_congr (fun e => mem_sortEdges))

theorem kruskal_threshold {n : Nat} {E T : List Edge} {s2 : UnionFindSet}
    (hmem : ∀ e ∈ E, e.src ∈ Finset.Icc 1 n ∧ e.dst ∈ Finset.Icc 1 n)
    (hrun : kruskalGo (sortEdges E) (UnionFindSet.init n) = some (T, s2))
    (t : Nat) :
    T.countP (fun e => t ≤ e.weight) + ncomp n (pairsOf E) =
      ncomp n (pairsOf (E.filter (fun e => e.weight < t))) := by
  have hsort := sortEdges_sorted E
  have hsplit : sortEdges E =
      (sortEdges E).takeWhile (fun e => e.weight < t) ++
      (sortEdges E).dropWhile (fun e => e.weight < t) :=
    (List.takeWhile_append_dropWhile ..).symm
  have hmemA : ∀ e ∈ (sortEdges E).takeWhile (fun e => e.weight < t),
      e.src ∈ Finset.Icc 1 n ∧ e.dst ∈ Finset.Icc 1 n := by
    intro e he
    exact hmem e (mem_sortEdges.mp ((List.takeWhile_sublist _).subset he))
  have hmemA' : ∀ e ∈ (sortEdges E).takeWhile (fun e => e.weight < t),
      e.src < n + 1 ∧ e.dst < n + 1 := by
    intro e he
    obtain ⟨h1, h2⟩ := hmemA e he
    exact ⟨by have := (Finset.mem_Icc.mp h1).2; omega,
      by have := (Finset.mem_Icc.mp h2).2; omega⟩
  have hmemB : ∀ e ∈ (sortEdges E).dropWhile (fun e => e.weight < t),
      e.src < n + 1 ∧ e.dst < n + 1 := by
    intro e he
    obtain ⟨h1, h2⟩ := hmem e (mem_sortEdges.mp ((List.dropWhile_sublist _).subset he))
    exact ⟨by have := (Finset.mem_Icc.mp h1).2; omega,
      by have := (Finset.mem_Icc.mp h2).2; omega⟩
  -- run on the prefix
  obtain ⟨T1, sm, hgoA, hwfm, hlenm, _, hsubA, _, _⟩ :=
    kruskalGo_spec ((sortEdges E).takeWhile (fun e => e.weight < t))
      (UnionFindSet.init n) n (init_length n) (init_WF n) hmemA'
  -- run on the suffix from the intermediate state
  obtain ⟨T2, sf, hgoB, _, _, _, hsubB, _, _⟩ :=
    kruskalGo_spec ((sortEdges E).dropWhile (fun e => e.weight < t)) sm n
      hlenm hwfm hmemB
  have hcomb := kruskalGo_append hgoA hgoB
  rw [← hsplit] at hcomb
  rw [hrun] at hcomb
  have hT : T = T1 ++ T2 := by
    have h := congrArg Prod.fst (Option.some_inj.mp hcomb)
    simp only at h
    exact h

  -- count of the prefix run
  have hinv0 : ∀ a b, a < n + 1 → b < n + 1 →
      (UFRel (UnionFindSet.init n) a b ↔ Conn [] a b) := by
    intro a b ha hb
    rw [init_UFRel, Conn_nil]
    constructor
    · exact fun h => h.1
    · exact fun h => ⟨h, ha⟩
  have hcountA := kruskalGo_count ((sortEdges E).takeWhile (fun e => e.weight < t))
    (UnionFindSet.init n) [] n (init_WF n) (init_length n) hmemA hinv0 T1 sm hgoA
  rw [List.append_nil, ncomp_nil] at hcountA
  -- count of the full run
  obtain ⟨T', s2', hgo', _, hcount', _⟩ := kruskal_init_facts hmem
  rw [hrun] at hgo'
  have hTT : T' = T := by
    have h := congrArg Prod.fst (Option.some_inj.mp hgo')
    simp only at h
    exact h.symm
  rw [hTT] at hcount'
  -- the prefix contains exactly the below-threshold edges of E
  have hApairs : ncomp n (pairsOf ((sortEdges E).takeWhile (fun e => e.weight < t))) =
      ncomp n (pairsOf (E.filter (fun e => e.weight < t))) := by
    apply ncomp_congr_mem
    apply pairsOf_mem_congr
    intro e
    rw [takeWhile_mem_iff hsort, List.mem_filter, mem_sortEdges]
    simp
  -- countP decomposition
  have hT1zero : T1.countP (fun e => t ≤ e.weight) = 0 := by
    rw [List.countP_eq_zero]
    intro e he
    have := List.mem_takeWhile_imp (hsubA.subset he)
    simp only [decide_eq_true_eq] at this ⊢
    omega
  have hT2full : T2.countP (fun e => t ≤ e.weight) = T2.length := by
    rw [List.countP_eq_length]
    intro e he
    have := dropWhile_lt_not hsort e (hsubB.subset he)
    simp only [decide_eq_true_eq]
    omega
  have hlenT : T.countP (fun e => t ≤ e.weight) = T2.length := by
    rw [hT, List.countP_append, hT1zero, hT2full]
    omega
  have hlenT12 : T.length = T1.length + T2.length := by
    rw [hT, List.length_append]
  rw [hApairs] at hcountA
  omega

theorem spanning_threshold_lower {n : Nat} {E S : List Edge}
    (hmemS : ∀ e ∈ S, e.src ∈ Finset.Icc 1 n ∧ e.dst ∈ Finset.Icc 1 n)
    (hspan : spansEq n S E) (t : Nat) :
    ncomp n (pairsOf (S.filter (fun e => e.weight < t))) ≤
      ncomp n (pairsOf E) + S.countP (fun e => t ≤ e.weight) := by
  have hdrop := ncomp_drop_le (pairsOf (S.filter (fun e => ¬ e.weight < t)))
    (pairsOf (S.filter (fun e => e.weight < t)))
    (by
      intro p hp
      unfold pairsOf at hp
      rw [List.mem_map] at hp
      obtain ⟨e, he, rfl⟩ := hp
      exact hmemS e (List.mem_of_mem_filter he))
  have hunion : ncomp n (pairsOf (S.filter (fun e => ¬ e.weight < t)) ++
      pairsOf (S.filter (fun e => e.weight < t))) = ncomp n (pairsOf S) := by
    apply ncomp_congr_mem
    intro p
    rw [List.mem_append]
    unfold pairsOf
    simp only [List.mem_map, List.mem_filter, decide_eq_true_eq, decide_not,
      Bool.not_eq_eq_eq_not, Bool.not_true, decide_eq_false_iff_not]
    constructor
    · rintro (⟨e, ⟨he, _⟩, rfl⟩ | ⟨e, ⟨he, _⟩, rfl⟩)
      · exact ⟨e, he, rfl⟩
      · exact ⟨e, he, rfl⟩
    · rintro ⟨e, he, rfl⟩
      by_cases hw : e.weight < t
      · exact Or.inr ⟨e, ⟨he, hw⟩, rfl⟩
      · exact Or.inl ⟨e, ⟨he, hw⟩, rfl⟩
  have hSE : ncomp n (pairsOf S) = ncomp n (pairsOf E) :=
    ncomp_congr_rel_Icc (fun x y hx hy => hspan x hx y hy)
  have hlen : (pairsOf (S.filter (fun e => ¬ e.weight < t))).length =
      S.countP (fun e => t ≤ e.weight) := by
    unfold pairsOf
    rw [List.length_map, ← List.countP_eq_length_filter]
    apply List.countP_congr
    intro e _
    simp only [decide_eq_true_eq, decide_not, Bool.not_eq_eq_eq_not, Bool.not_true,
      decide_eq_false_iff_not]
    omega
  rw [hunion, hSE, hlen] at hdrop
  exact hdrop

theorem kruskal_le_spanning {n : Nat} {E T S : List Edge} {s2 : UnionFindSet}
    (hmemE : ∀ e ∈ E, e.src ∈ Finset.Icc 1 n ∧ e.dst ∈ Finset.Icc 1 n)
    (hrun : kruskalGo (sortEdges E) (UnionFindSet.init n) = some (T, s2))
    (hsubS : S.Sublist E) (hspan : spansEq n S E) : wsum T ≤ wsum S := by
  obtain ⟨T', s2', hgo', hsubT', _, _⟩ := kruskal_init_facts hmemE
  rw [hrun] at hgo'
  have hTT : T' = T := by
    have h := congrArg Prod.fst (Option.some_inj.mp hgo')
    simp only at h
    exact h.symm
  rw [hTT] at hsubT'
  have hTmemE : ∀ e ∈ T, e ∈ E := fun e he => mem_sortEdges.mp (hsubT'.subset he)
  have hWT : ∀ e ∈ T, e.weight ≤ maxWeight E := fun e he => le_maxWeight e (hTmemE e he)
  have hWS : ∀ e ∈ S, e.weight ≤ maxWeight E :=
    fun e he => le_maxWeight e (hsubS.subset he)
  have hmemS : ∀ e ∈ S, e.src ∈ Finset.Icc 1 n ∧ e.dst ∈ Finset.Icc 1 n :=
    fun e he => hmemE e (hsubS.subset he)
  rw [wsum_eq_sum_countP hWT, wsum_eq_sum_countP hWS]
  apply Finset.sum_le_sum
  intro t _
  have h1 := kruskal_threshold hmemE hrun t
  have h2 := spanning_threshold_lower hmemS hspan t
  have h3 : ncomp n (pairsOf (E.filter (fun e => e.weight < t))) ≤
      ncomp n (pairsOf (S.filter (fun e => e.weight < t))) :=
    ncomp_mono (pairsOf_mono (fun e he => (hsubS.filter _).subset he))
  omega

/-- Modelled from the spec: the independent reference algorithm — brute-force
enumeration of all sub-edge-lists that induce the same connectivity, taking
the minimum total weight. -/
def bruteForceMSTWeight (n : Nat) (E : List Edge) : Nat :=
  (((E.sublists).filter (fun S => decide (spansEq n S E))).map wsum).foldr min (wsum E)

theorem le_foldr_min {a seed : Nat} : ∀ {l : List Nat}, a ≤ seed →
    (∀ x ∈ l, a ≤ x) → a ≤ l.foldr min seed := by
  intro l
  induction l with
  | nil => intro h _; exact h
  | cons x l ih =>
    intro hs hall
    rw [List.foldr_cons]
    exact le_min (hall x (List.mem_cons_self _ _))
      (ih hs (fun y hy => hall y (List.mem_cons_of_mem _ hy)))

theorem foldr_min_le_mem {seed a : Nat} : ∀ {l : List Nat}, a ∈ l →
    l.foldr min seed ≤ a := by
  intro l
  induction l with
  | nil => intro h; simp at h
  | cons x l ih =>
    intro h
    rw [List.foldr_cons]
    rcases List.mem_cons.mp h with rfl | h
    · exact min_le_left _ _
    · exact le_trans (min_le_right _ _) (ih h)

theorem foldr_min_eq {seed a : Nat} {l : List Nat} (hmem : a ∈ l) (hseed : a ≤ seed)
    (hall : ∀ x ∈ l, a ≤ x) : l.foldr min seed = a :=
  Nat.le_antisymm (foldr_min_le_mem hmem) (le_foldr_min hseed hall)

/-- The Kruskal output achieves exactly the brute-force minimum spanning
weight. -/
theorem kruskal_eq_bruteforce {n : Nat} {E T : List Edge} {s2 : UnionFindSet}
    (hmemE : ∀ e ∈ E, e.src ∈ Finset.Icc 1 n ∧ e.dst ∈ Finset.Icc 1 n)
    (hrun : kruskalGo (sortEdges E) (UnionFindSet.init n) = some (T, s2)) :
    wsum T = bruteForceMSTWeight n E := by
  obtain ⟨T', s2x, hgo', hsubT', _, hspanT'⟩ := kruskal_init_facts hmemE
  rw [hrun] at hgo'
  have hTT : T' = T := by
    have h := congrArg Prod.fst (Option.some_inj.mp hgo')
    simp only at h
    exact h.symm
  rw [hTT] at hsubT' hspanT'
  -- a sublist of E that is a permutation of T
  have hsubperm : List.Subperm T E :=
    (hsubT'.subperm).trans (sortEdges_perm E).subperm
  obtain ⟨S0, hperm, hsub0⟩ := hsubperm
  have hwsum0 : wsum S0 = wsum T := by
    unfold wsum
    exact (hperm.map Edge.weight).sum_eq
  have hspan0 : spansEq n S0 E := by
    intro x hx y hy
    have hc : ∀ a b, Conn (pairsOf S0) a b ↔ Conn (pairsOf T) a b :=
      fun a b => RelJoin_congr_mem (pairsOf_mem_congr (fun e => hperm.mem_iff))
    rw [hc x y]
    exact hspanT' x hx y hy
  have hmem0 : wsum S0 ∈ (((E.sublists).filter
      (fun S => decide (spansEq n S E))).map wsum) := by
    rw [List.mem_map]
    refine ⟨S0, ?_, rfl⟩
    rw [List.mem_filter]
    exact ⟨List.mem_sublists.mpr hsub0, decide_eq_true hspan0⟩
  unfold bruteForceMSTWeight
  rw [← hwsum0]
  refine (foldr_min_eq hmem0 ?_ ?_).symm
  · rw [hwsum0]
    refine kruskal_le_spanning hmemE hrun (List.Sublist.refl E) ?_
    intro x _ y _
    exact Iff.rfl
  · intro x hx
    rw [List.mem_map] at hx
    obtain ⟨S, hS, rfl⟩ := hx
    rw [List.mem_filter] at hS
    rw [hwsum0]
    exact kruskal_le_spanning hmemE hrun (List.mem_sublists.mp hS.1)
      (of_decide_eq_true hS.2)

/-! ## Topology rebuild: weight symmetry -/

theorem hasEdge_iff {E : List Edge} {u v : Nat} :
    hasEdge E u v = true ↔ ∃ e ∈ E, e.src = u ∧ e.dst = v := by
  unfold hasEdge
  rw [List.any_eq_true]
  constructor
  · rintro ⟨e, he, hp⟩
    simp only [Bool.and_eq_true, beq_iff_eq] at hp
    exact ⟨e, he, hp⟩
  · rintro ⟨e, he, h1, h2⟩
    exact ⟨e, he, by simp [h1, h2]⟩

theorem find?_map_replace {E : List Edge} {e : Edge} {a b : Nat}
    (hne : ¬(a = e.src ∧ b = e.dst)) :
    (E.map (fun x => if x.src == e.src && x.dst == e.dst then e else x)).find?
      (fun x => x.src == a && x.dst == b) =
    E.find? (fun x => x.src == a && x.dst == b) := by
  induction E with
  | nil => rfl
  | cons x xs ih =>
    rw [List.map_cons, List.find?_cons, List.find?_cons]
    by_cases hself : x.src = e.src ∧ x.dst = e.dst
    · rw [if_pos (by simp [hself.1, hself.2])]
      have h1 : (e.src == a && e.dst == b) = false := by
        rcases Decidable.not_and_iff_or_not.mp hne with h | h
        · simp [Ne.symm h]
        · simp only [Bool.and_eq_false_iff]
          right
          simpa using Ne.symm h
      have h2 : (x.src == a && x.dst == b) = false := by
        rw [hself.1, hself.2]
        exact h1
      rw [h2]
      show (match (e.src == a && e.dst == b) with
        | true => some e | false => _) = _
      rw [h1]
      exact ih
    · rw [if_neg (by
        simp only [Bool.and_eq_true, beq_iff_eq]
        exact hself)]
      cases hp : (x.src == a && x.dst == b) with
      | true => rfl
      | false => exact ih

theorem find?_map_replace_self {E : List Edge} {e : Edge}
    (hhas : hasEdge E e.src e.dst = true) :
    (E.map (fun x => if x.src == e.src && x.dst == e.dst then e else x)).find?
      (fun x => x.src == e.src && x.dst == e.dst) = some e := by
  induction E with
  | nil => simp [hasEdge] at hhas
  | cons x xs ih =>
    rw [List.map_cons, List.find?_cons]
    by_cases hself : x.src = e.src ∧ x.dst = e.dst
    · rw [if_pos (by simp [hself.1, hself.2])]
      show (match (e.src == e.src && e.dst == e.dst) with
        | true => some e | false => _) = _
      simp
    · rw [if_neg (by
        simp only [Bool.and_eq_true, beq_iff_eq]
        exact hself)]
      have hp : (x.src == e.src && x.dst == e.dst) = false := by
        simp only [Bool.and_eq_false_iff]
        rcases Decidable.not_and_iff_or_not.mp hself with h | h
        · left; simpa using h
        · right; simpa using h
      rw [hp]
      apply ih
      unfold hasEdge at hhas
      rw [List.any_cons] at hhas
      simp only [hp, Bool.false_or] at hhas
      exact hhas

theorem getWeight_addEdge_self {E : List Edge} {e : Edge} :
    getWeight (addEdge E e) e.src e.dst = e.weight := by
  unfold addEdge
  split
  next hhas =>
    unfold getWeight
    rw [find?_map_replace_self hhas]
  next hhas =>
    unfold getWeight
    rw [List.find?_append]
    have hE : E.find? (fun x => x.src == e.src && x.dst == e.dst) = none := by
      rw [List.find?_eq_none]
      intro x hx hpred
      apply hhas
      unfold hasEdge
      rw [List.any_eq_true]
      exact ⟨x, hx, hpred⟩
    rw [hE]
    simp [List.find?]

theorem getWeight_addEdge_other {E : List Edge} {e : Edge} {a b : Nat}
    (hne : ¬(a = e.src ∧ b = e.dst)) :
    getWeight (addEdge E e) a b = getWeight E a b := by
  unfold addEdge
  split
  next =>
    unfold getWeight
    rw [find?_map_replace hne]
  next =>
    unfold getWeight
    rw [List.find?_append]
    have he : ([e].find? (fun x => x.src == a && x.dst == b)) = none := by
      rw [List.find?_eq_none]
      intro x hx hpred
      rw [List.mem_singleton] at hx
      subst hx
      simp only [Bool.and_eq_true, beq_iff_eq] at hpred
      exact hne ⟨hpred.1.symm, hpred.2.symm⟩
    rw [he]
    cases E.find? (fun x => x.src == a && x.dst == b) <;> rfl

theorem hasEdge_addEdge {E : List Edge} {e : Edge} {a b : Nat} :
    hasEdge (addEdge E e) a b = true ↔
      ((a = e.src ∧ b = e.dst) ∨ hasEdge E a b = true) := by
  unfold addEdge
  split
  next hhas =>
    rw [hasEdge_iff, hasEdge_iff]
    constructor
    · rintro ⟨x, hx, h1, h2⟩
      rw [List.mem_map] at hx
      obtain ⟨y, hy, rfl⟩ := hx
      by_cases hself : y.src = e.src ∧ y.dst = e.dst
      · rw [if_pos (by simp [hself.1, hself.2])] at h1 h2
        exact Or.inl ⟨h1.symm, h2.symm⟩
      · rw [if_neg (by
          simp only [Bool.and_eq_true, beq_iff_eq]
          exact hself)] at h1 h2
        exact Or.inr ⟨y, hy, h1, h2⟩
    · rintro (⟨rfl, rfl⟩ | ⟨y, hy, h1, h2⟩)
      · obtain ⟨y, hy, hy1, hy2⟩ := hasEdge_iff.mp hhas
        refine ⟨e, List.mem_map.mpr ⟨y, hy, ?_⟩, rfl, rfl⟩
        rw [if_pos (by simp [hy1, hy2])]
      · by_cases hself : y.src = e.src ∧ y.dst = e.dst
        · refine ⟨e, List.mem_map.mpr ⟨y, hy, ?_⟩, ?_, ?_⟩
          · rw [if_pos (by simp [hself.1, hself.2])]
          · rw [← h1, hself.1]
          · rw [← h2, hself.2]
        · refine ⟨y, List.mem_map.mpr ⟨y, hy, ?_⟩, h1, h2⟩
          rw [if_neg (by
            simp only [Bool.and_eq_true, beq_iff_eq]
            exact hself)]
  next =>
    rw [hasEdge_iff, hasEdge_iff]
    constructor
    · rintro ⟨x, hx, h1, h2⟩
      rcases List.mem_append.mp hx with hx | hx
      · exact Or.inr ⟨x, hx, h1, h2⟩
      · rw [List.mem_singleton] at hx
        subst hx
        exact Or.inl ⟨h1.symm, h2.symm⟩
    · rintro (⟨rfl, rfl⟩ | ⟨y, hy, h1, h2⟩)
      · exact ⟨e, List.mem_append_right _ (List.mem_singleton.mpr rfl), rfl, rfl⟩
      · exact ⟨y, List.mem_append_left _ hy, h1, h2⟩

/-- The two directed edges of a pair always carry the same weight. -/
def symWeights (E : List Edge) : Prop :=
  ∀ u v, hasEdge E u v = true → hasEdge E v u = true →
    getWeight E u v = getWeight E v u

theorem symWeights_addEdge {acc : List Edge} {u v sp dp w : Nat}
    (hsym : symWeights acc)
    (hw : hasEdge acc v u = true → w = getWeight acc v u) :
    symWeights (addEdge acc ⟨u, v, sp, dp, w⟩) := by
  intro a b h1 h2
  -- a fully symmetric helper for the single interesting case
  by_cases hab : a = u ∧ b = v
  · obtain ⟨rfl, rfl⟩ := hab
    rw [getWeight_addEdge_self]
    by_cases hvu : a = b
    · subst hvu
      rw [getWeight_addEdge_self]
    · have hrev : hasEdge acc b a = true := by
        rcases hasEdge_addEdge.mp h2 with ⟨h3, h4⟩ | h3
        · exact absurd h4 (by simpa using hvu)
        · exact h3
      rw [getWeight_addEdge_other (by
        intro hc
        exact hvu (by simpa using hc.2))]
      exact (hw hrev).trans rfl
  · by_cases hba : b = u ∧ a = v
    · obtain ⟨rfl, rfl⟩ := hba
      rw [getWeight_addEdge_self]
      by_cases hvu : a = b
      · subst hvu
        rw [getWeight_addEdge_self]
      · have hrev : hasEdge acc a b = true := by
          rcases hasEdge_addEdge.mp h1 with ⟨h3, h4⟩ | h3
          · exact absurd h3 (by simpa using hvu)
          · exact h3
        rw [getWeight_addEdge_other (by
          intro hc
          exact hvu (by simpa using hc.1))]
        exact ((hw hrev).trans rfl).symm
    · have h1' : hasEdge acc a b = true := by
        rcases hasEdge_addEdge.mp h1 with h | h
        · exact absurd h hab
        · exact h
      have h2' : hasEdge acc b a = true := by
        rcases hasEdge_addEdge.mp h2 with h | h
        · exact absurd ⟨by simpa using h.1, by simpa using h.2⟩ hba
        · exact h
      rw [getWeight_addEdge_other (by
          intro hc
          exact hab ⟨by simpa using hc.1, by simpa using hc.2⟩),
        getWeight_addEdge_other (by
          intro hc
          exact hba ⟨by simpa using hc.1, by simpa using hc.2⟩)]
      exact hsym a b h1' h2'

theorem rebuildEdges_sym (ws : Nat → Nat) :
    ∀ (links : List LinkDisc) (k : Nat) (acc : List Edge), symWeights acc →
      symWeights (rebuildEdges ws links k acc).1 := by
  intro links
  induction links with
  | nil => intro k acc h; exact h
  | cons l ls ih =>
    intro k acc hsym
    rw [rebuildEdges]
    split
    next hhas =>
      exact ih k _ (symWeights_addEdge hsym (fun _ => rfl))
    next hhas =>
      exact ih (k + 1) _ (symWeights_addEdge hsym (fun hc => absurd hc (by simpa using hhas)))

/-! ## Controller lemmas -/

theorem find_datapath_eq {s : CState} {d x : Nat}
    (h : find_datapath_by_id s d = some x) : x = d ∧ d ∈ s.datapaths := by
  unfold find_datapath_by_id at h
  have h1 := List.find?_some h
  have h2 := List.mem_of_find?_eq_some h
  have h3 : x = d := by simpa using h1
  exact ⟨h3, h3 ▸ h2⟩

theorem find_datapath_none {s : CState} {d : Nat}
    (h : find_datapath_by_id s d = none) : d ∉ s.datapaths := by
  intro hmem
  unfold find_datapath_by_id at h
  rw [List.find?_eq_none] at h
  exact absurd (by simp : (d == d) = true) (h d hmem)

theorem find_datapath_mem {s : CState} {d : Nat} (h : d ∈ s.datapaths) :
    find_datapath_by_id s d = some d := by
  unfold find_datapath_by_id
  cases hf : s.datapaths.find? (fun x => x == d) with
  | none =>
    rw [List.find?_eq_none] at hf
    exact absurd (by simp : (d == d) = true) (hf d h)
  | some x =>
    have := List.find?_some hf
    have : x = d := by simpa using this
    rw [this]

theorem send_port_mod_some {s : CState} {dpid port opt : Nat} {ps : List Nat}
    (h : get_switch_ports s dpid = some ps) :
    send_port_mod s dpid port opt =
      some (if ps.contains port then [CAction.portMod dpid port opt] else []) := by
  unfold send_port_mod
  simp only [h]
  split
  next => rfl
  next => rfl

theorem blockGo_spec {s : CState} {excepts : List (Nat × Nat)}
    (hdp : ∀ d ∈ s.datapaths, ∃ ps, get_switch_ports s d = some ps) :
    ∀ (es : List Edge), ∃ acts, blockGo s excepts es = some acts ∧
      ∀ a, a ∈ acts ↔ ∃ e ∈ es,
        ¬((e.src, e.dst) ∈ excepts ∨ (e.dst, e.src) ∈ excepts) ∧
        e.src ∈ s.datapaths ∧ e.dst ∈ s.datapaths ∧
        ((∃ ps, get_switch_ports s e.src = some ps ∧ e.src_port ∈ ps ∧
            a = CAction.portMod e.src e.src_port OFPPC_PORT_DOWN) ∨
         (∃ ps, get_switch_ports s e.dst = some ps ∧ e.dst_port ∈ ps ∧
            a = CAction.portMod e.dst e.dst_port OFPPC_PORT_DOWN)) := by
  intro es
  induction es with
  | nil => exact ⟨[], rfl, by simp⟩
  | cons e es ih =>
    obtain ⟨rest, hrest, hiff⟩ := ih
    rw [blockGo]
    by_cases hexc : (e.src, e.dst) ∈ excepts ∨ (e.dst, e.src) ∈ excepts
    · rw [if_pos hexc]
      refine ⟨rest, hrest, fun a => ?_⟩
      rw [hiff a]
      constructor
      · rintro ⟨f, hf, hc⟩
        exact ⟨f, List.mem_cons_of_mem _ hf, hc⟩
      · rintro ⟨f, hf, hne, hc⟩
        rcases List.mem_cons.mp hf with rfl | hf
        · exact absurd hexc hne
        · exact ⟨f, hf, hne, hc⟩
    · rw [if_neg hexc]
      cases hf1 : find_datapath_by_id s e.src with
      | none =>
        simp only
        refine ⟨rest, hrest, fun a => ?_⟩
        rw [hiff a]
        constructor
        · rintro ⟨f, hf, hc⟩
          exact ⟨f, List.mem_cons_of_mem _ hf, hc⟩
        · rintro ⟨f, hf, hne, hsrcm, hc⟩
          rcases List.mem_cons.mp hf with rfl | hf
          · exact absurd hsrcm (find_datapath_none hf1)
          · exact ⟨f, hf, hne, hsrcm, hc⟩
      | some du =>
        cases hf2 : find_datapath_by_id s e.dst with
        | none =>
          simp only
          refine ⟨rest, hrest, fun a => ?_⟩
          rw [hiff a]
          constructor
          · rintro ⟨f, hf, hc⟩
            exact ⟨f, List.mem_cons_of_mem _ hf, hc⟩
          · rintro ⟨f, hf, hne, hsrcm, hdstm, hc⟩
            rcases List.mem_cons.mp hf with rfl | hf
            · exact absurd hdstm (find_datapath_none hf2)
            · exact ⟨f, hf, hne, hsrcm, hdstm, hc⟩
        | some dv =>
          obtain ⟨hdu, hsrcm⟩ := find_datapath_eq hf1
          obtain ⟨hdv, hdstm⟩ := find_datapath_eq hf2
          subst hdu
          subst hdv
          obtain ⟨ps1, hps1⟩ := hdp e.src hsrcm
          obtain ⟨ps2, hps2⟩ := hdp e.dst hdstm
          simp only [send_port_mod_some hps1, send_port_mod_some hps2, hrest]
          refine ⟨_, rfl, fun a => ?_⟩
          rw [List.mem_append, List.mem_append, hiff a]
          constructor
          · rintro ((h | h) | h)
            · split at h
              next hc =>
                rw [List.mem_singleton] at h
                refine ⟨e, List.mem_cons_self _ _, hexc, hsrcm, hdstm,
                  Or.inl ⟨ps1, hps1, ?_, h⟩⟩
                simpa using hc
              next => simp at h
            · split at h
              next hc =>
                rw [List.mem_singleton] at h
                refine ⟨e, List.mem_cons_self _ _, hexc, hsrcm, hdstm,
                  Or.inr ⟨ps2, hps2, ?_, h⟩⟩
                simpa using hc
              next => simp at h
            · obtain ⟨f, hf, hc⟩ := h
              exact ⟨f, List.mem_cons_of_mem _ hf, hc⟩
          · rintro ⟨f, hf, hne, hsm, hdm, hc⟩
            rcases List.mem_cons.mp hf with rfl | hf
            · rcases hc with ⟨ps, hps, hport, rfl⟩ | ⟨ps, hps, hport, rfl⟩
              · rw [hps1] at hps
                cases hps
                refine Or.inl (Or.inl ?_)
                rw [if_pos (by simpa using hport)]
                exact List.mem_singleton.mpr rfl
              · rw [hps2] at hps
                cases hps
                refine Or.inl (Or.inr ?_)
                rw [if_pos (by simpa using hport)]
                exact List.mem_singleton.mpr rfl
            · exact Or.inr ⟨f, hf, hne, hsm, hdm, hc⟩

theorem block_links_spec {s : CState} {excepts : List (Nat × Nat)}
    (hdp : ∀ d ∈ s.datapaths, ∃ ps, get_switch_ports s d = some ps) :
    ∃ acts, block_links s excepts = some acts ∧
      ∀ a, a ∈ acts ↔ ∃ e ∈ s.topo.edges,
        ¬((e.src, e.dst) ∈ excepts ∨ (e.dst, e.src) ∈ excepts) ∧
        e.src ∈ s.datapaths ∧ e.dst ∈ s.datapaths ∧
        ((∃ ps, get_switch_ports s e.src = some ps ∧ e.src_port ∈ ps ∧
            a = CAction.portMod e.src e.src_port OFPPC_PORT_DOWN) ∨
         (∃ ps, get_switch_ports s e.dst = some ps ∧ e.dst_port ∈ ps ∧
            a = CAction.portMod e.dst e.dst_port OFPPC_PORT_DOWN)) :=
  blockGo_spec hdp s.topo.edges

theorem updateMac_isSome {m : Nat → Nat → Option Nat} {dpid mac port d a q : Nat}
    (h : m d a = some q) : ((updateMac m dpid mac port) d a).isSome = true := by
  unfold updateMac
  split
  · rfl
  · rw [h]
    rfl

theorem packet_in_mac_mono {s : CState} {p : Packet} {s1 : CState} {as : List CAction}
    (h : packet_in s p = some (s1, as)) :
    ∀ d m q, s.mac_to_port d m = some q → (s1.mac_to_port d m).isSome = true := by
  intro d m q hdm
  unfold packet_in at h
  split at h
  next =>
    cases h
    rw [hdm]
    rfl
  next =>
    split at h
    next =>
      split at h
      next => exact absurd h (by simp)
      next uf hug =>
        split at h
        next => exact absurd h (by simp)
        next tree uf2 hk =>
          split at h
          next => exact absurd h (by simp)
          next acts hb =>
            cases h
            exact updateMac_isSome hdm
    next =>
      cases h
      exact updateMac_isSome hdm

theorem packet_in_MST_true {s : CState} {p : Packet} {s1 : CState} {as : List CAction}
    (h : packet_in s p = some (s1, as)) (hm : s.topo.MST_exist = true) :
    s1.topo = s.topo ∧ ∀ d q c, CAction.portMod d q c ∉ as := by
  unfold packet_in at h
  split at h
  next =>
    cases h
    exact ⟨rfl, by simp⟩
  next =>
    rw [if_neg (by simp [hm])] at h
    cases h
    refine ⟨rfl, ?_⟩
    intro d q c hc
    simp [fwdActions] at hc

theorem packet_in_trigger {s : CState} {p : Packet} {s1 : CState} {as : List CAction}
    (h : packet_in s p = some (s1, as)) (hm : s.topo.MST_exist = false)
    (hnf : ¬(p.ethertype = ETH_TYPE_LLDP ∨ p.ethertype = ETH_TYPE_IPV6))
    (hflood : outPortOf s p = OFPP_FLOOD) :
    ∃ uf tree uf2 acts, s.topo.ufset = some uf ∧
      Topo.Kruskal s.topo.edges uf = some (tree, uf2) ∧
      block_links s tree = some acts ∧
      s1.topo.MST_exist = true ∧ s1.topo.ufset = some uf2 ∧
      s1.topo.edges = s.topo.edges ∧
      as = acts ++ fwdActions s p ∧
      s1.mac_to_port = updateMac s.mac_to_port p.dpid p.src p.in_port := by
  unfold packet_in at h
  rw [if_neg hnf, if_pos ⟨hflood, hm⟩] at h
  split at h
  next => exact absurd h (by simp)
  next uf hug =>
    split at h
    next => exact absurd h (by simp)
    next tree uf2 hk =>
      split at h
      next => exact absurd h (by simp)
      next acts hb =>
        cases h
        exact ⟨uf, tree, uf2, acts, hug, hk, hb, rfl, rfl, rfl, rfl, rfl⟩

theorem packet_in_flip_iff {s : CState} {p : Packet} {s1 : CState} {as : List CAction}
    (h : packet_in s p = some (s1, as)) (hm : s.topo.MST_exist = false) :
    (s1.topo.MST_exist = true ↔
      (¬(p.ethertype = ETH_TYPE_LLDP ∨ p.ethertype = ETH_TYPE_IPV6) ∧
        outPortOf s p = OFPP_FLOOD)) := by
  unfold packet_in at h
  split at h
  next hft =>
    cases h
    constructor
    · intro hc
      rw [hm] at hc
      exact absurd hc (by simp)
    · rintro ⟨hnf, _⟩
      exact absurd hft hnf
  next hft =>
    split at h
    next hcond =>
      split at h
      next => exact absurd h (by simp)
      next uf hug =>
        split at h
        next => exact absurd h (by simp)
        next tree uf2 hk =>
          split at h
          next => exact absurd h (by simp)
          next acts hb =>
            cases h
            simp only [true_iff]
            exact ⟨hft, hcond.1⟩
    next hcond =>
      cases h
      constructor
      · intro hc
        rw [hm] at hc
        exact absurd hc (by simp)
      · rintro ⟨_, hflood⟩
        exact absurd ⟨hflood, hm⟩ hcond

/-- Replay a packet sequence, logging for each packet the generation flag
before and after it and the emitted actions. -/
def runPackets (s : CState) : List Packet →
    Option (CState × List (Bool × Bool × List CAction))
  | [] => some (s, [])
  | p :: ps =>
    match packet_in s p with
    | none => none
    | some (s1, as) =>
      match runPackets s1 ps with
      | none => none
      | some (s2, log) => some (s2, (s.topo.MST_exist, s1.topo.MST_exist, as) :: log)

theorem runPackets_true : ∀ {ps : List Packet} {s s2 : CState}
    {log : List (Bool × Bool × List CAction)},
    runPackets s ps = some (s2, log) → s.topo.MST_exist = true →
    (∀ r ∈ log, r.1 = true ∧ ∀ d q c, CAction.portMod d q c ∉ r.2.2) ∧
      s2.topo.MST_exist = true := by
  intro ps
  induction ps with
  | nil =>
    intro s s2 log h hm
    rw [runPackets] at h
    cases h
    exact ⟨by simp, hm⟩
  | cons p ps ih =>
    intro s s2 log h hm
    rw [runPackets] at h
    split at h
    next => exact absurd h (by simp)
    next s1 as h1 =>
      split at h
      next => exact absurd h (by simp)
      next s3 log2 h2 =>
        cases h
        obtain ⟨htopo, hnoport⟩ := packet_in_MST_true h1 hm
        have hm1 : s1.topo.MST_exist = true := by rw [htopo]; exact hm
        obtain ⟨hall, hfin⟩ := ih h2 hm1
        refine ⟨?_, hfin⟩
        intro r hr
        rcases List.mem_cons.mp hr with rfl | hr
        · exact ⟨hm, hnoport⟩
        · exact hall r hr

theorem runPackets_flip_once : ∀ {ps : List Packet} {s s2 : CState}
    {log : List (Bool × Bool × List CAction)},
    runPackets s ps = some (s2, log) →
    log.countP (fun r => r.1 == false && r.2.1 == true) ≤ 1 := by
  intro ps
  induction ps with
  | nil =>
    intro s s2 log h
    rw [runPackets] at h
    cases h
    simp
  | cons p ps ih =>
    intro s s2 log h
    rw [runPackets] at h
    split at h
    next => exact absurd h (by simp)
    next s1 as h1 =>
      split at h
      next => exact absurd h (by simp)
      next s3 log2 h2 =>
        cases h
        rw [List.countP_cons]
        by_cases hs1 : s1.topo.MST_exist = true
        · have hzero : log2.countP (fun r => r.1 == false && r.2.1 == true) = 0 := by
            rw [List.countP_eq_zero]
            intro r hr
            have := ((runPackets_true h2 hs1).1 r hr).1
            simp [this]
          rw [hzero]
          split <;> omega
        · have hfalse : s1.topo.MST_exist = false := by
            cases hc : s1.topo.MST_exist
            · rfl
            · exact absurd hc hs1
          have : ((s.topo.MST_exist == false) && (s1.topo.MST_exist == true)) = false := by
            rw [hfalse]
            simp
          rw [this]
          simpa using ih h2

theorem kruskal_second_run {n : Nat} {E : List Edge} {T1 : List (Nat × Nat)}
    {s2 : UnionFindSet}
    (hmem : ∀ e ∈ E, e.src < n + 1 ∧ e.dst < n + 1)
    (hrun : Topo.Kruskal E (UnionFindSet.init n) = some (T1, s2)) :
    ∃ s3, Topo.Kruskal E s2 = some ([], s3) := by
  have hmem' : ∀ e ∈ sortEdges E, e.src < n + 1 ∧ e.dst < n + 1 :=
    fun e he => hmem e (mem_sortEdges.mp he)
  obtain ⟨T, s2x, hgo, hwf2, hlen2, _, _, hchar, _⟩ :=
    kruskalGo_spec (sortEdges E) (UnionFindSet.init n) n (init_length n) (init_WF n) hmem'
  unfold Topo.Kruskal at hrun
  rw [hgo] at hrun
  have hs2 : s2x = s2 := by
    have h := congrArg Prod.snd (Option.some_inj.mp hrun)
    simpa using h
  rw [hs2] at hwf2 hlen2 hchar hgo
  have hall : ∀ e ∈ sortEdges E, UFRel s2 e.src e.dst := by
    intro e he
    exact (hchar e.src e.dst (hmem' e he).1 (hmem' e he).2).mpr
      (RelJoin.edge (by simp [pairsOf]; exact ⟨e, he, rfl, rfl⟩))
  obtain ⟨s3, hgo2, _, _⟩ := kruskalGo_skip_all (sortEdges E) s2 hwf2 hall
  refine ⟨s3, ?_⟩
  unfold Topo.Kruskal
  rw [hgo2]
  rfl

theorem rootsEqual_iff_UFRel {s : UnionFindSet} (hwf : s.WF) {x y : Nat}
    (hx : x < s.fa.length) (hy : y < s.fa.length) :
    rootsEqual s x y ↔ UFRel s x y := by
  obtain ⟨s1, rx, h1⟩ := find_succeeds hwf hx
  obtain ⟨_, hwf1, hlen1, _, _⟩ := find_spec hwf h1
  obtain ⟨s2, ry, h2⟩ := find_succeeds hwf1 (by rw [hlen1]; exact hy)
  constructor
  · rintro ⟨t1, r1, t2, r2, g1, g2, geq⟩
    rw [h1] at g1
    have hts : s1 = t1 := congrArg Prod.fst (Option.some_inj.mp g1)
    have hrs : rx = r1 := congrArg Prod.snd (Option.some_inj.mp g1)
    rw [← hts, h2] at g2
    have hrs2 : ry = r2 := congrArg Prod.snd (Option.some_inj.mp g2)
    refine (roots_eq_iff_UFRel hwf h1 h2).mp ?_
    rw [hrs, hrs2]
    exact geq
  · intro h
    exact ⟨s1, rx, s2, ry, h1, h2, (roots_eq_iff_UFRel hwf h1 h2).mpr h⟩

theorem findAux_self {fa : List Nat} :
    ∀ {f x fa2 r}, findAux f fa x = some (fa2, r) → fa2[x]? = some r := by
  intro f
  cases f with
  | zero => intro x fa2 r h; simp [findAux] at h
  | succ f =>
    intro x fa2 r h
    rw [findAux] at h
    split at h
    case isTrue hx =>
      split at h
      case isTrue hroot =>
        cases h
        rw [List.getElem?_eq_getElem hx, hroot]
      case isFalse hroot =>
        split at h
        · exact absurd h (by simp)
        · rename_i fa3 r3 heq
          cases h
          exact List.getElem?_set_eq_of_lt _ (by rw [findAux_length heq]; exact hx)
    case isFalse => exact absurd h (by simp)

theorem findAux_short {fa : List Nat} {x r : Nat} (hx : fa[x]? = some r)
    (hr : fa[r]? = some r) : ∀ {f}, fa.length ≤ f → findAux f fa x = some (fa, r) := by
  intro f hf
  have hxlt : x < fa.length := (List.getElem?_eq_some.mp hx).1
  have hrlt : r < fa.length := (List.getElem?_eq_some.mp hr).1
  have hxv : fa[x] = r := by
    have h := (List.getElem?_eq_getElem hxlt).symm.trans hx
    exact Option.some_inj.mp h
  have hrv : fa[r] = r := by
    have h := (List.getElem?_eq_getElem hrlt).symm.trans hr
    exact Option.some_inj.mp h
  rcases eq_or_ne x r with rfl | hne
  · cases f with
    | zero => omega
    | succ f =>
      rw [findAux, dif_pos hxlt, if_pos hxv]
  · have h2 : 2 ≤ fa.length := by omega
    cases f with
    | zero => omega
    | succ f =>
      rw [findAux]
      rw [dif_pos hxlt, if_neg (by rw [hxv]; exact Ne.symm hne)]
      have hinner : findAux f fa fa[x] = some (fa, r) := by
        cases f with
        | zero => omega
        | succ g =>
          rw [hxv, findAux, dif_pos hrlt, if_pos hrv]
      simp only [hinner]
      rw [set_getElem?_self hx]

theorem find_idem {s : UnionFindSet} {x : Nat} {s1 : UnionFindSet} {r : Nat}
    (h : s.find x = some (s1, r)) : s1.find x = some (s1, r) := by
  obtain ⟨hrp, hlen, hsz, hpres⟩ := find_parts h
  have hrp1 : RootP s1.fa x r := (hpres x r).mpr hrp
  have hroot : s1.fa[r]? = some r := RootP_isRoot hrp1
  have hx1 : s1.fa[x]? = some r := by
    rw [UnionFindSet.find] at h
    split at h
    · rename_i fa2 r2 heq
      have hself := findAux_self heq
      cases h
      exact hself
    · exact absurd h (by simp)
  have hrun := findAux_short hx1 hroot (Nat.le_refl s1.fa.length)
  simp only [UnionFindSet.find, hrun]

/-! ## Concrete instances used to settle the claims -/

/-- The 4-switch full mesh of Scenario A: weights (1,2):3, (1,3):1, (1,4):4,
(2,3):2, (2,4):5, (3,4):6. -/
def meshE : List Edge :=
  [⟨1, 2, 1, 1, 3⟩, ⟨1, 3, 2, 1, 1⟩, ⟨1, 4, 3, 1, 4⟩,
   ⟨2, 3, 2, 2, 2⟩, ⟨2, 4, 3, 2, 5⟩, ⟨3, 4, 3, 3, 6⟩]

/-- A controller state with both endpoints of the single link registered. -/
def C2Wstate : CState :=
  { datapaths := [1, 2]
    mac_to_port := fun _ _ => none
    topo := { edges := [⟨1, 2, 7, 9, 5⟩], ufset := none, MST_exist := false }
    switches := [(1, [7]), (2, [9])] }

/-- A controller state where only switch 1 has a registered control session;
switch 2 is absent from the datapath list. -/
def C2Xstate : CState :=
  { datapaths := [1]
    mac_to_port := fun _ _ => none
    topo := { edges := [⟨1, 2, 7, 9, 5⟩], ufset := none, MST_exist := false }
    switches := [(1, [7]), (2, [9])] }

/-! ## Claims -/

/-- Claim C1 counterexample: on the Scenario A mesh, the first Kruskal run
returns the tree [(1,3),(2,3),(1,4)], but a second call on the same edge list
with the persisting disjoint-set returns the empty list, not the same tree. -/
theorem C1_counterexample :
    Topo.Kruskal meshE (UnionFindSet.init 4) =
      some ([(1, 3), (2, 3), (1, 4)], ⟨[0, 2, 2, 2, 2], 4⟩) ∧
    Topo.Kruskal meshE ⟨[0, 2, 2, 2, 2], 4⟩ = some ([], ⟨[0, 2, 2, 2, 2], 4⟩) ∧
    ([] : List (Nat × Nat)) ≠ [(1, 3), (2, 3), (1, 4)] := by
  decide

/-- Claim C1 (amended): recomputing the MST on the same unchanged topology is
not idempotent. The disjoint-set persists across calls and is never
re-initialized by Kruskal itself, so after a first successful run from a fresh
disjoint-set, a second call on the same edge list finds every edge's endpoints
already merged and returns the empty tree edge list. -/
theorem C1_second_run_empty :
    (∀ (n : Nat) (E : List Edge) (T1 : List (Nat × Nat)) (s2 : UnionFindSet),
      (∀ e ∈ E, e.src < n + 1 ∧ e.dst < n + 1) →
      Topo.Kruskal E (UnionFindSet.init n) = some (T1, s2) →
      ∃ s3, Topo.Kruskal E s2 = some ([], s3)) ∧
    (Topo.Kruskal meshE (UnionFindSet.init 4)).map Prod.fst =
      some [(1, 3), (2, 3), (1, 4)] := by
  refine ⟨?_, by decide⟩
  intro n E T1 s2 hmem hrun
  exact kruskal_second_run hmem hrun

/-- Claim C2 counterexample: a non-tree link whose destination switch has no
registered control session. The source switch 1 is available and its port 7 is
known to the discovery view, yet block_links emits no action at all: the code
skips the whole link unless both endpoints are available. -/
theorem C2_counterexample :
    find_datapath_by_id C2Xstate 1 = some 1 ∧
    find_datapath_by_id C2Xstate 2 = none ∧
    get_switch_ports C2Xstate 1 = some [7] ∧
    block_links C2Xstate [] = some [] := by
  decide

/-- Claim C2 (amended): when an endpoint's control session is unavailable the
Link Enforcer skips the entire link, issuing no action for either endpoint; an
administrative-down action is emitted exactly for links outside the tree whose
BOTH endpoints are registered (and whose port is in the discovery view). No
error is raised and the remaining links are still processed. -/
theorem C2_block_links_requires_both {s : CState} {excepts : List (Nat × Nat)}
    (hdp : ∀ d ∈ s.datapaths, ∃ ps, get_switch_ports s d = some ps) :
    ∃ acts, block_links s excepts = some acts ∧
      ∀ a, a ∈ acts ↔ ∃ e ∈ s.topo.edges,
        ¬((e.src, e.dst) ∈ excepts ∨ (e.dst, e.src) ∈ excepts) ∧
        e.src ∈ s.datapaths ∧ e.dst ∈ s.datapaths ∧
        ((∃ ps, get_switch_ports s e.src = some ps ∧ e.src_port ∈ ps ∧
            a = CAction.portMod e.src e.src_port OFPPC_PORT_DOWN) ∨
         (∃ ps, get_switch_ports s e.dst = some ps ∧ e.dst_port ∈ ps ∧
            a = CAction.portMod e.dst e.dst_port OFPPC_PORT_DOWN)) :=
  block_links_spec hdp

/-- Claim C2 witness: with both endpoints registered, the port-down action for
the source port of the non-tree link is in fact emitted. -/
theorem C2_witness :
    ∃ acts, block_links C2Wstate [] = some acts ∧
      CAction.portMod 1 7 OFPPC_PORT_DOWN ∈ acts := by
  obtain ⟨acts, hb, hiff⟩ := @C2_block_links_requires_both C2Wstate []
    (by
      intro d hd
      fin_cases hd
      · exact ⟨[7], rfl⟩
      · exact ⟨[9], rfl⟩)
  refine ⟨acts, hb, (hiff _).mpr ?_⟩
  refine ⟨⟨1, 2, 7, 9, 5⟩, by decide, by decide, by decide, by decide, Or.inl ?_⟩
  exact ⟨[7], rfl, by decide, rfl⟩

set_option maxRecDepth 40000 in
/-- Claim C3 counterexample: on the Scenario A mesh the tree produced by
Kruskal has total weight 7, which is also the brute-force minimum spanning
weight; the figure 6 claimed by the specification is below the true minimum
and is attained by no spanning sublist. -/
theorem C3_counterexample :
    (kruskalGo (sortEdges meshE) (UnionFindSet.init 4)).map (fun p => wsum p.1) =
      some 7 ∧
    bruteForceMSTWeight 4 meshE = 7 ∧ (7 : Nat) ≠ 6 := by
  refine ⟨by decide, by decide, by decide⟩

/-- Claim C3 (amended): for every fixed edge list over switches 1..n with a
freshly initialized disjoint-set, the total weight of the tree produced by
Kruskal equals the minimum spanning weight computed by brute-force enumeration
of spanning sublists; on the Scenario A mesh that weight is 7, not 6. -/
theorem C3_kruskal_optimal :
    (∀ (n : Nat) (E T : List Edge) (s2 : UnionFindSet),
      (∀ e ∈ E, e.src ∈ Finset.Icc 1 n ∧ e.dst ∈ Finset.Icc 1 n) →
      kruskalGo (sortEdges E) (UnionFindSet.init n) = some (T, s2) →
      wsum T = bruteForceMSTWeight n E) ∧
    (kruskalGo (sortEdges meshE) (UnionFindSet.init 4)).map (fun p => wsum p.1) =
      some 7 := by
  refine ⟨?_, by decide⟩
  intro n E T s2 hmem hrun
  exact kruskal_eq_bruteforce hmem hrun

/-- Claim C4: Kruskal from a fresh disjoint-set over switches 1..n always
terminates successfully after processing all edges, and the produced tree has
exactly n − k edges where k is the number of connected components of the edge
list over 1..n; in particular it never has more than n − 1 edges. -/
theorem C4_tree_size (n : Nat) (E : List Edge)
    (hmem : ∀ e ∈ E, e.src ∈ Finset.Icc 1 n ∧ e.dst ∈ Finset.Icc 1 n) :
    ∃ T s2, kruskalGo (sortEdges E) (UnionFindSet.init n) = some (T, s2) ∧
      T.length + ncomp n (pairsOf E) = n ∧ (1 ≤ n → T.length ≤ n - 1) := by
  obtain ⟨T, s2, hgo, _, hcount, _⟩ := kruskal_init_facts hmem
  refine ⟨T, s2, hgo, hcount, fun hn => ?_⟩
  have := ncomp_pos hn (pairsOf E)
  omega

/-- Claim C4 witness: on the Scenario A mesh (connected, n = 4) the bounds
hold with a concrete run. -/
theorem C4_witness :
    (∀ e ∈ meshE, e.src ∈ Finset.Icc 1 4 ∧ e.dst ∈ Finset.Icc 1 4) ∧
    ∃ T s2, kruskalGo (sortEdges meshE) (UnionFindSet.init 4) = some (T, s2) ∧
      T.length + ncomp 4 (pairsOf meshE) = 4 ∧ (1 ≤ 4 → T.length ≤ 4 - 1) :=
  ⟨by decide, C4_tree_size 4 meshE (by decide)⟩

/-- Claim C5: the generation flag is false right after a rebuild (the MST is
not computed eagerly); on a packet-in with the flag down, the flag flips
exactly when the packet passes the ethertype filter and its forwarding
decision falls back to flood; on that transition the MST engine and then the
link enforcer run and their actions precede the forwarding actions; over any
replayed packet sequence the flag flips at most once; and once the flag is up,
later packets leave the topology state untouched and emit no port-down
action. -/
theorem C5_lazy_enforcement :
    (∀ s sws ls ws k, (switch_enter s sws ls ws k).1.topo.MST_exist = false) ∧
    (∀ s p s1 as, packet_in s p = some (s1, as) → s.topo.MST_exist = false →
      (s1.topo.MST_exist = true ↔
        (¬(p.ethertype = ETH_TYPE_LLDP ∨ p.ethertype = ETH_TYPE_IPV6) ∧
          outPortOf s p = OFPP_FLOOD))) ∧
    (∀ s p s1 as, packet_in s p = some (s1, as) → s.topo.MST_exist = false →
      ¬(p.ethertype = ETH_TYPE_LLDP ∨ p.ethertype = ETH_TYPE_IPV6) →
      outPortOf s p = OFPP_FLOOD →
      ∃ uf tree uf2 acts, s.topo.ufset = some uf ∧
        Topo.Kruskal s.topo.edges uf = some (tree, uf2) ∧
        block_links s tree = some acts ∧
        s1.topo.MST_exist = true ∧ as = acts ++ fwdActions s p) ∧
    (∀ ps s s2 log, runPackets s ps = some (s2, log) →
      log.countP (fun r => r.1 == false && r.2.1 == true) ≤ 1) ∧
    (∀ s p s1 as, packet_in s p = some (s1, as) → s.topo.MST_exist = true →
      s1.topo = s.topo ∧ ∀ d q c, CAction.portMod d q c ∉ as) := by
  refine ⟨fun _ _ _ _ _ => rfl, fun _ _ _ _ h hm => packet_in_flip_iff h hm,
    ?_, fun _ _ _ _ h => runPackets_flip_once h,
    fun _ _ _ _ h hm => packet_in_MST_true h hm⟩
  intro s p s1 as h hm hnf hfl
  obtain ⟨uf, tree, uf2, acts, h1, h2, h3, h4, _, _, h7, _⟩ :=
    packet_in_trigger h hm hnf hfl
  exact ⟨uf, tree, uf2, acts, h1, h2, h3, h4, h7⟩

/-- Claim C6: after a rebuild the edge list built by the discovery loop gives
equal weights to the two directions of every pair present both ways, because
a link whose reverse edge already exists copies that edge's weight instead of
drawing a fresh one from the weight provider. -/
theorem C6_weight_symmetry :
    (∀ (ws : Nat → Nat) (links : List LinkDisc) (k : Nat),
      symWeights (rebuildEdges ws links k []).1) ∧
    (∀ (ws : Nat → Nat) (l : LinkDisc) (ls : List LinkDisc) (k : Nat)
      (acc : List Edge), hasEdge acc l.dst l.src = true →
      rebuildEdges ws (l :: ls) k acc =
        rebuildEdges ws ls k
          (addEdge acc ⟨l.src, l.dst, l.src_port, l.dst_port,
            getWeight acc l.dst l.src⟩)) := by
  constructor
  · intro ws links k
    refine rebuildEdges_sym ws links k [] ?_
    intro u v h1 _
    exact absurd h1 (by simp [hasEdge])
  · intro ws l ls k acc h
    rw [rebuildEdges, if_pos h]

/-- Claim C7: for a disjoint-set initialized with count n and any sequence of
unions over ids 1..n, the sequenced root comparison performed by union
(find x, then find y) succeeds and returns equal roots exactly when x and y
are connected by the pairs unioned so far; immediately after a successful
union(a,b) the two roots agree; a successful find is idempotent (same state,
same root); and path compression never changes which root any id reaches. -/
theorem C7_unionfind_correct :
    (∀ (n : Nat) (ops : List (Nat × Nat)),
      (∀ p ∈ ops, p.1 ∈ Finset.Icc 1 n ∧ p.2 ∈ Finset.Icc 1 n) →
      ∃ s', applyUnions (UnionFindSet.init n) ops = some s' ∧
        ∀ x ∈ Finset.Icc 1 n, ∀ y ∈ Finset.Icc 1 n,
          (rootsEqual s' x y ↔ Conn ops x y)) ∧
    (∀ (s : UnionFindSet) (a b : Nat) (s2 : UnionFindSet), s.WF →
      a < s.fa.length → b < s.fa.length → s.union a b = some s2 →
      rootsEqual s2 a b) ∧
    (∀ (s : UnionFindSet) (x : Nat) (s1 : UnionFindSet) (r : Nat),
      s.find x = some (s1, r) → s1.find x = some (s1, r)) ∧
    (∀ (s : UnionFindSet) (x : Nat) (s1 : UnionFindSet) (r : Nat),
      s.find x = some (s1, r) → ∀ y t, RootP s1.fa y t ↔ RootP s.fa y t) := by
  refine ⟨?_, ?_, fun _ _ _ _ h => find_idem h,
    fun _ _ _ _ h => (find_parts h).2.2.2⟩
  · intro n ops hops
    have hb : ∀ p ∈ ops, p.1 < (UnionFindSet.init n).fa.length ∧
        p.2 < (UnionFindSet.init n).fa.length := by
      intro p hp
      rw [init_length]
      obtain ⟨h1, h2⟩ := hops p hp
      have := (Finset.mem_Icc.mp h1).2
      have := (Finset.mem_Icc.mp h2).2
      omega
    obtain ⟨s', hap, hwf, hlen, _, hchar⟩ :=
      applyUnions_spec ops (UnionFindSet.init n) (init_WF n) hb
    refine ⟨s', hap, ?_⟩
    intro x hx y hy
    have hxb : x < (UnionFindSet.init n).fa.length := by
      rw [init_length]
      have := (Finset.mem_Icc.mp hx).2
      omega
    have hyb : y < (UnionFindSet.init n).fa.length := by
      rw [init_length]
      have := (Finset.mem_Icc.mp hy).2
      omega
    rw [rootsEqual_iff_UFRel hwf (by rw [hlen]; exact hxb) (by rw [hlen]; exact hyb)]
    rw [hchar x y hxb hyb]
    exact RelJoin_init_iff_Conn
  · intro s a b s2 hwf ha hb h
    obtain ⟨s3, hu, hwf3, hlen3, _, hrel, _⟩ := union_spec hwf ha hb
    rw [h] at hu
    obtain rfl := Option.some_inj.mp hu
    exact (rootsEqual_iff_UFRel hwf3 (by rw [hlen3]; exact ha)
      (by rw [hlen3]; exact hb)).mpr hrel

/-- Claim C8 counterexample: id 0 lies outside the documented range 1..n, yet
find(0) on a fresh disjoint-set of count 3 succeeds silently and returns
representative 0 — no out-of-range condition is raised. -/
theorem C8_counterexample :
    (UnionFindSet.init 3).find 0 = some (UnionFindSet.init 3, 0) ∧
    0 ∉ Finset.Icc 1 3 := by
  decide

/-- Claim C8 (amended): only ids strictly greater than n fail with the
out-of-range condition: find(x) and both union orders fail for n < x, while
id 0 — also outside 1..n — is silently accepted, find(0) returning
representative 0 and leaving the state unchanged. -/
theorem C8_out_of_range (n x : Nat) (hx : n + 1 ≤ x) :
    (UnionFindSet.init n).find x = none ∧
    (∀ y, (UnionFindSet.init n).union x y = none) ∧
    (∀ y, (UnionFindSet.init n).union y x = none) ∧
    (UnionFindSet.init n).find 0 = some (UnionFindSet.init n, 0) := by
  have hlen : (UnionFindSet.init n).fa.length ≤ x := by
    rw [init_length]
    exact hx
  refine ⟨find_none hlen, ?_, ?_, ?_⟩
  · intro y
    simp only [UnionFindSet.union, find_none hlen]
  · intro y
    cases hfy : (UnionFindSet.init n).find y with
    | none => simp only [UnionFindSet.union, hfy]
    | some pr =>
      obtain ⟨s1, ry⟩ := pr
      have hlen1 : s1.fa.length ≤ x := by
        rw [(find_parts hfy).2.1, init_length]
        exact hx
      simp only [UnionFindSet.union, hfy, find_none hlen1]
  · have h0 : (UnionFindSet.init n).fa[0]? = some 0 := init_getElem (Nat.succ_pos n)
    have hrun := findAux_short h0 h0 (Nat.le_refl (UnionFindSet.init n).fa.length)
    simp only [UnionFindSet.find, hrun]

/-- Claim C8 witness: with n = 3 and x = 5 the out-of-range find fails. -/
theorem C8_witness :
    (3 + 1 ≤ 5) ∧ (UnionFindSet.init 3).find 5 = none :=
  ⟨by decide, (C8_out_of_range 3 5 (by decide)).1⟩

/-- Claim C9: a topology rebuild leaves the MAC-learning table literally
unchanged, and within a generation every packet-in only adds or overwrites
entries — an entry present before a packet is still present after it. -/
theorem C9_mac_table :
    (∀ s sws ls ws k, (switch_enter s sws ls ws k).1.mac_to_port = s.mac_to_port) ∧
    (∀ s p s1 as, packet_in s p = some (s1, as) →
      ∀ d m q, s.mac_to_port d m = some q → (s1.mac_to_port d m).isSome = true) :=
  ⟨fun _ _ _ _ _ => rfl, fun _ _ _ _ h => packet_in_mac_mono h⟩

/-- Claim C10: the Kruskal operation is deterministic — on the same edge list
(same edges, weights and insertion order) and the same starting disjoint-set
it returns the same result, tree edges in the same order; the embedding draws
no randomness and the insertion sort is a fixed function of its input. -/
theorem C10_deterministic (E1 E2 : List Edge) (s1 s2 : UnionFindSet)
    (hE : E1 = E2) (hs : s1 = s2) :
    Topo.Kruskal E1 s1 = Topo.Kruskal E2 s2 := by
  rw [hE, hs]

/-- Claim C10 witness: two runs on the Scenario A mesh coincide. -/
theorem C10_witness :
    meshE = meshE ∧ UnionFindSet.init 4 = UnionFindSet.init 4 ∧
    Topo.Kruskal meshE (UnionFindSet.init 4) = Topo.Kruskal meshE (UnionFindSet.init 4) :=
  ⟨rfl, rfl, C10_deterministic meshE meshE (UnionFindSet.init 4) (UnionFindSet.init 4) rfl rfl⟩
